import Mathlib

/-!
Verification of the jcollections container library (growable-array Vector,
Stack adapter, ArrayDeque, and the binary-heap PriorityQueue built on
Python's heapq primitives).  The definitions below are shallow embeddings of
the Python source: lists model the backing buffers, `Option` models Python's
None slots, and `Except` models raised errors (carrying the state at the
moment of the raise, as Python exceptions do).
-/

namespace Jc

/-- Error kinds surfaced by the library.  In the source all of these are
Python exceptions; the messages distinguish them: `indexOutOfRange` is
IndexError("Index out of bounds"), `emptyCollection` is the
IndexError raised with an empty-container message ("peek from empty stack",
"Deque is empty", "Queue is empty"), `valueError` is ValueError. -/
inductive JErr where
  | indexOutOfRange
  | emptyCollection
  | valueError
deriving DecidableEq, Repr

/-! ## Binary-heap index arithmetic

Positions in the array-backed heap: the parent of slot `j` is `(j-1)/2`,
the children of `i` are `2i+1` and `2i+2`.  `ancB a j` decides whether `a`
is an ancestor-or-self of `j` in this implicit tree. -/

/-- Decides whether `a` is an ancestor of `j` (or `j` itself) in the implicit binary tree. -/
def ancB (a : Nat) (j : Nat) : Bool :=
  if a = j then true
  else if 0 < j then ancB a ((j - 1) / 2)
  else false
termination_by j
decreasing_by
  exact Nat.lt_of_le_of_lt (Nat.div_le_self _ _) (by omega)

theorem ancB_refl (a : Nat) : ancB a a = true := by
  unfold ancB; simp

theorem ancB_of_parent {a j : Nat} (hj : 0 < j) (h : ancB a ((j - 1) / 2) = true) :
    ancB a j = true := by
  unfold ancB
  by_cases haj : a = j <;> simp [haj, hj, h]

theorem ancB_elim {a j : Nat} (h : ancB a j = true) :
    a = j ∨ (0 < j ∧ ancB a ((j - 1) / 2) = true) := by
  unfold ancB at h
  by_cases haj : a = j
  · exact Or.inl haj
  · by_cases hj : 0 < j
    · simp [haj, hj] at h; exact Or.inr ⟨hj, h⟩
    · simp [haj, hj] at h

theorem ancB_le {a j : Nat} (h : ancB a j = true) : a ≤ j := by
  induction j using Nat.strong_induction_on with
  | _ j ih =>
    rcases ancB_elim h with h1 | ⟨hj, h2⟩
    · omega
    · have := ih ((j - 1) / 2) (by omega) h2
      omega

theorem ancB_zero (j : Nat) : ancB 0 j = true := by
  induction j using Nat.strong_induction_on with
  | _ j ih =>
    rcases Nat.eq_zero_or_pos j with h | h
    · subst h; exact ancB_refl 0
    · exact ancB_of_parent h (ih _ (by omega))

theorem ancB_trans {a b j : Nat} (h1 : ancB a b = true) (h2 : ancB b j = true) :
    ancB a j = true := by
  induction j using Nat.strong_induction_on with
  | _ j ih =>
    rcases ancB_elim h2 with h | ⟨hj, h⟩
    · subst h; exact h1
    · exact ancB_of_parent hj (ih _ (by omega) h)

/-- children of `p` are exactly `2p+1` and `2p+2`. -/
theorem parent_eq_iff {p j : Nat} (hj : 0 < j) :
    (j - 1) / 2 = p ↔ j = 2 * p + 1 ∨ j = 2 * p + 2 := by
  omega

/-- Two positions that are both ancestors of `x` are comparable by ancestry. -/
theorem ancB_total {u v x : Nat} (hu : ancB u x = true) (hv : ancB v x = true) :
    ancB u v = true ∨ ancB v u = true := by
  induction x using Nat.strong_induction_on with
  | _ x ih =>
    rcases ancB_elim hu with h | ⟨hx, hu'⟩
    · subst h; exact Or.inr hv
    · rcases ancB_elim hv with h | ⟨_, hv'⟩
      · subst h; exact Or.inl hu
      · exact ih _ (by omega) hu' hv'

/-- Subtrees of the two children of `p` are disjoint. -/
theorem ancB_sibling_false {p x : Nat}
    (h1 : ancB (2 * p + 1) x = true) (h2 : ancB (2 * p + 2) x = true) : False := by
  rcases ancB_total h1 h2 with h | h
  · rcases ancB_elim h with h' | ⟨_, h'⟩
    · omega
    · have : (2 * p + 2 - 1) / 2 = p := by omega
      rw [this] at h'
      have := ancB_le h'
      omega
  · have := ancB_le h
    omega

/-- A member of the subtree of `p` is `p` itself or lies in the subtree of
one of the two children of `p`. -/
theorem ancB_cases {p x : Nat} (h : ancB p x = true) :
    x = p ∨ ancB (2 * p + 1) x = true ∨ ancB (2 * p + 2) x = true := by
  induction x using Nat.strong_induction_on with
  | _ x ih =>
    rcases ancB_elim h with h' | ⟨hx, h'⟩
    · exact Or.inl h'.symm
    · by_cases hp : (x - 1) / 2 = p
      · rcases (parent_eq_iff hx).1 hp with h2 | h2
        · exact Or.inr (Or.inl (h2 ▸ ancB_refl _))
        · exact Or.inr (Or.inr (h2 ▸ ancB_refl _))
      · rcases ih _ (by omega) h' with h2 | h2 | h2
        · exact absurd h2 hp
        · exact Or.inr (Or.inl (ancB_of_parent hx h2))
        · exact Or.inr (Or.inr (ancB_of_parent hx h2))

/-! ## List helpers -/

section ListHelpers

variable {α : Type} (dflt : α)

theorem getD_set_eq (l : List α) (i : Nat) (a : α) (h : i < l.length) :
    (l.set i a).getD i dflt = a := by
  simp [List.getD_eq_getElem?_getD, List.getElem?_set_self', h]

theorem getD_set_ne (l : List α) (i j : Nat) (a : α) (h : i ≠ j) :
    (l.set i a).getD j dflt = l.getD j dflt := by
  simp [List.getD_eq_getElem?_getD, List.getElem?_set_ne h]

theorem getD_append_left (l l2 : List α) (j : Nat) (h : j < l.length) :
    (l ++ l2).getD j dflt = l.getD j dflt := by
  simp [List.getD_eq_getElem?_getD, List.getElem?_append_left h]

theorem getD_append_right_self (l : List α) (x : α) :
    (l ++ [x]).getD l.length dflt = x := by
  simp [List.getD_eq_getElem?_getD, List.getElem?_append_right (le_refl l.length)]

theorem getD_dropLast (l : List α) (j : Nat) (h : j < l.length - 1) :
    l.dropLast.getD j dflt = l.getD j dflt := by
  have hlen : j < l.dropLast.length := by simp [List.length_dropLast]; omega
  rw [List.getD_eq_getElem?_getD, List.getD_eq_getElem?_getD,
    List.getElem?_eq_getElem hlen, List.getElem?_eq_getElem (by omega : j < l.length)]
  simp [List.getElem_dropLast]

theorem getD_take (l : List α) (n j : Nat) (h : j < n) :
    (l.take n).getD j dflt = l.getD j dflt := by
  rw [List.getD_eq_getElem?_getD, List.getD_eq_getElem?_getD, List.getElem?_take]
  rw [if_pos h]

theorem mem_iff_getD (l : List α) (a : α) :
    a ∈ l ↔ ∃ j, j < l.length ∧ l.getD j dflt = a := by
  constructor
  · intro h
    rcases List.mem_iff_getElem.1 h with ⟨i, hi, he⟩
    exact ⟨i, hi, by simp [List.getD_eq_getElem?_getD, List.getElem?_eq_getElem hi, he]⟩
  · rintro ⟨j, hj, he⟩
    have : l.getD j dflt = l[j] := by
      simp [List.getD_eq_getElem?_getD, List.getElem?_eq_getElem hj]
    rw [this] at he
    exact he ▸ List.getElem_mem hj

/-- Setting slot `i` swaps the old value out of the multiset and the new one in. -/
theorem set_mset (l : List α) (i : Nat) (a : α) (h : i < l.length) :
    ((l.set i a : List α) : Multiset α) + {l.getD i dflt} = (l : Multiset α) + {a} := by
  induction l generalizing i with
  | nil => simp at h
  | cons x t ih =>
    cases i with
    | zero =>
      show ((a :: t : List α) : Multiset α) + {x} = ((x :: t : List α) : Multiset α) + {a}
      rw [add_comm, add_comm _ ({a} : Multiset α), Multiset.singleton_add,
        Multiset.singleton_add, ← Multiset.cons_coe, ← Multiset.cons_coe]
      exact Multiset.cons_swap x a (t : Multiset α)
    | succ i =>
      have hi : i < t.length := by simpa using h
      have hh := ih i hi
      show ((x :: t.set i a : List α) : Multiset α) + {t.getD i dflt}
          = ((x :: t : List α) : Multiset α) + {a}
      calc ((x :: t.set i a : List α) : Multiset α) + {t.getD i dflt}
          = x ::ₘ (((t.set i a : List α) : Multiset α) + {t.getD i dflt}) := by
            rw [← Multiset.cons_coe, Multiset.cons_add]
        _ = x ::ₘ ((t : Multiset α) + {a}) := by rw [hh]
        _ = ((x :: t : List α) : Multiset α) + {a} := by
            rw [← Multiset.cons_coe, Multiset.cons_add]

end ListHelpers

/-! ## Python heapq

Faithful embedding of the CPython `heapq` primitives used by
`PriorityQueue`: `heappush`, `heappop`, `heapify`, with their helpers
`_siftdown` (bubble a fresh item at `pos` up towards `startpos`) and
`_siftup` (bubble the smaller child up along a path to a leaf, then call
`_siftdown` back up).  The heap is a plain list; reads are `getD` (the
source never reads out of bounds on the inputs these functions receive). -/

section Heapq

variable {α : Type} [LinearOrder α] [Inhabited α]

/-- The while-loop of CPython's `_siftdown(heap, startpos, pos)`, with
`newitem` already read from `heap[pos]`: while `pos > startpos`, if
`newitem < heap[parentpos]` move the parent down into `pos` and continue at
`parentpos`; on exit write `newitem` at the final `pos`. -/
def siftdownLoop (startpos : Nat) (newitem : α) (l : List α) (pos : Nat) : List α :=
  if startpos < pos then
    let parentpos := (pos - 1) / 2
    let parent := l.getD parentpos default
    if newitem < parent then
      siftdownLoop startpos newitem (l.set pos parent) parentpos
    else
      l.set pos newitem
  else
    l.set pos newitem
termination_by pos
decreasing_by
  exact Nat.lt_of_le_of_lt (Nat.div_le_self _ _) (by omega)

/-- Unfolding equation of `siftdownLoop` (continue case), for evaluating
concrete instances step by step. -/
theorem siftdownLoop_step {startpos pos : Nat} (newitem : α) (l : List α)
    (h1 : startpos < pos) (h2 : newitem < l.getD ((pos - 1) / 2) default) :
    siftdownLoop startpos newitem l pos
      = siftdownLoop startpos newitem
          (l.set pos (l.getD ((pos - 1) / 2) default)) ((pos - 1) / 2) := by
  rw [siftdownLoop, if_pos h1, if_pos h2]

/-- Unfolding equation of `siftdownLoop` (parent small enough). -/
theorem siftdownLoop_stop1 {startpos pos : Nat} (newitem : α) (l : List α)
    (h1 : startpos < pos) (h2 : ¬ newitem < l.getD ((pos - 1) / 2) default) :
    siftdownLoop startpos newitem l pos = l.set pos newitem := by
  rw [siftdownLoop, if_pos h1, if_neg h2]

/-- Unfolding equation of `siftdownLoop` (reached the start position). -/
theorem siftdownLoop_stop2 {startpos pos : Nat} (newitem : α) (l : List α)
    (h1 : ¬ startpos < pos) :
    siftdownLoop startpos newitem l pos = l.set pos newitem := by
  rw [siftdownLoop, if_neg h1]

/-- CPython `_siftdown(heap, startpos, pos)`: reads `newitem = heap[pos]`
then runs the loop. -/
def siftdown (l : List α) (startpos pos : Nat) : List α :=
  siftdownLoop startpos (l.getD pos default) l pos

/-- The child selected by CPython's `_siftup` loop body: the left child
`2*pos+1`, replaced by the right child when the right child exists and the
left child is not smaller than it. -/
def chooseChild (l : List α) (pos : Nat) : Nat :=
  if 2 * pos + 2 < l.length ∧ ¬ l.getD (2 * pos + 1) default < l.getD (2 * pos + 2) default then
    2 * pos + 2
  else
    2 * pos + 1

/-- The while-loop of CPython's `_siftup(heap, pos)`: while the left child
exists, move the smaller child up into `pos` and descend to it; returns the
final array and the leaf position reached. -/
def siftupLoop (l : List α) (pos : Nat) : List α × Nat :=
  if h : 2 * pos + 1 < l.length then
    let c := chooseChild l pos
    siftupLoop (l.set pos (l.getD c default)) c
  else
    (l, pos)
termination_by l.length - pos
decreasing_by
  simp only [List.length_set]
  have hc : 2 * pos + 1 ≤ chooseChild l pos := by
    unfold chooseChild
    split <;> omega
  have hc2 : chooseChild l pos < l.length := by
    unfold chooseChild
    split
    · omega
    · exact h
  omega

/-- Unfolding equation of `siftupLoop` (descend case). -/
theorem siftupLoop_step {pos : Nat} (l : List α) (h : 2 * pos + 1 < l.length) :
    siftupLoop l pos
      = siftupLoop (l.set pos (l.getD (chooseChild l pos) default)) (chooseChild l pos) := by
  rw [siftupLoop]
  simp only [dif_pos h]

/-- Unfolding equation of `siftupLoop` (reached a leaf). -/
theorem siftupLoop_stop {pos : Nat} (l : List α) (h : ¬ 2 * pos + 1 < l.length) :
    siftupLoop l pos = (l, pos) := by
  rw [siftupLoop]
  simp only [dif_neg h]

/-- CPython `_siftup(heap, pos)`: read `newitem = heap[pos]`, bubble the
smaller-child chain up to a leaf, place `newitem` at the leaf, and sift it
back down (up the tree) towards `pos`. -/
def siftup (l : List α) (pos : Nat) : List α :=
  let newitem := l.getD pos default
  let r := siftupLoop l pos
  siftdownLoop pos newitem (r.1.set r.2 newitem) r.2

/-- CPython `heappush(heap, item)`: append, then sift the new leaf down
towards the root. -/
def heappush (l : List α) (item : α) : List α :=
  siftdownLoop 0 item (l ++ [item]) l.length

/-- CPython `heappop(heap)`: pop the last element; if the heap is still
non-empty, remember the root, move the last element to the root and
`_siftup(heap, 0)`.  Returns `none` on an empty heap (the caller guards
this case). -/
def heappop (l : List α) : Option (α × List α) :=
  match l.getLast? with
  | none => none
  | some lastelt =>
    let rest := l.dropLast
    if rest.isEmpty then some (lastelt, rest)
    else some (rest.getD 0 default, siftup (rest.set 0 lastelt) 0)

/-- The loop of CPython `heapify(x)`: `for i in reversed(range(n//2)): _siftup(x, i)`.
`heapifyAux l k` performs the calls at positions `k-1, k-2, ..., 0`. -/
def heapifyAux (l : List α) : Nat → List α
  | 0 => l
  | k + 1 => heapifyAux (siftup l k) k

/-- CPython `heapify(x)`. -/
def heapify (l : List α) : List α :=
  heapifyAux l (l.length / 2)

/-- The binary min-heap property on every edge whose parent slot is at
least `s` (so `IsHeap = HeapFrom 0`). -/
def HeapFrom (s : Nat) (l : List α) : Prop :=
  ∀ j, 0 < j → j < l.length → s ≤ (j - 1) / 2 →
    l.getD ((j - 1) / 2) default ≤ l.getD j default

/-- The standard binary min-heap property: every slot is at least its parent. -/
def IsHeap (l : List α) : Prop :=
  ∀ j, 0 < j → j < l.length → l.getD ((j - 1) / 2) default ≤ l.getD j default

theorem isHeap_iff_heapFrom_zero (l : List α) : IsHeap l ↔ HeapFrom 0 l := by
  constructor
  · intro h j h1 h2 _; exact h j h1 h2
  · intro h j h1 h2; exact h j h1 h2 (Nat.zero_le _)

theorem isHeap_nil : IsHeap ([] : List α) := by
  intro j _ hj; simp at hj

/-- Full specification of the `_siftdown` loop, relative to the subtree
rooted at `s`.  The slot `pos` is a hole (its children, if any, are known to
be at least `x` and at least the hole's parent); every other edge whose
parent lies in the subtree of `s` is heap-ordered.  The loop places `x`,
preserving length and multiset (counting `x` in place of the hole's stale
content), touching only ancestors of `pos` that are at least `s`, and
restoring heap order on every edge whose parent is in the subtree of `s`. -/
theorem siftdownLoop_spec (s : Nat) (x : α) (pos : Nat) : ∀ (l : List α),
    pos < l.length →
    ancB s pos = true →
    (∀ j, 0 < j → j < l.length → ancB s ((j - 1) / 2) = true → j ≠ pos →
      l.getD ((j - 1) / 2) default ≤ l.getD j default) →
    (∀ j, 0 < j → j < l.length → (j - 1) / 2 = pos → x ≤ l.getD j default) →
    (s ≠ pos → ∀ j, 0 < j → j < l.length → (j - 1) / 2 = pos →
      l.getD ((pos - 1) / 2) default ≤ l.getD j default) →
    (siftdownLoop s x l pos).length = l.length ∧
    ((siftdownLoop s x l pos : List α) : Multiset α) + {l.getD pos default}
      = (l : Multiset α) + {x} ∧
    (∀ j, ¬ (ancB j pos = true ∧ s ≤ j) →
      (siftdownLoop s x l pos).getD j default = l.getD j default) ∧
    (∀ j, 0 < j → j < l.length → ancB s ((j - 1) / 2) = true →
      (siftdownLoop s x l pos).getD ((j - 1) / 2) default
        ≤ (siftdownLoop s x l pos).getD j default) := by
  induction pos using Nat.strong_induction_on with
  | _ pos ih =>
    intro l hpos hanc hP2 hP3 hP4
    by_cases hs : s < pos
    · have h0pos : 0 < pos := by omega
      set pp := (pos - 1) / 2 with hpp
      have hpplt : pp < pos := by omega
      have hppne : pp ≠ pos := by omega
      have hpplen : pp < l.length := by omega
      have hancpp : ancB s pp = true := by
        rcases ancB_elim hanc with h | ⟨_, h⟩
        · omega
        · exact h
      set parent := l.getD pp default with hparent
      by_cases hlt : x < parent
      · -- move the parent down into the hole and continue at the parent slot
        have hcall : siftdownLoop s x l pos = siftdownLoop s x (l.set pos parent) pp := by
          rw [siftdownLoop, if_pos hs, if_pos hlt]
        set l' := l.set pos parent with hl'
        have hlen' : l'.length = l.length := by simp [hl']
        have hgpos' : l'.getD pos default = parent := getD_set_eq default l pos parent hpos
        have hgne : ∀ j, j ≠ pos → l'.getD j default = l.getD j default := by
          intro j hj; exact getD_set_ne default l pos j parent (fun h => hj h.symm)
        have hQ2 : ∀ j, 0 < j → j < l'.length → ancB s ((j - 1) / 2) = true → j ≠ pp →
            l'.getD ((j - 1) / 2) default ≤ l'.getD j default := by
          intro j hj0 hjl hjanc hjne
          rw [hlen'] at hjl
          by_cases hje : j = pos
          · subst hje
            rw [show (j - 1) / 2 = pp from rfl, hgne pp hppne, hgpos']
          · rw [hgne j hje]
            by_cases hpe : (j - 1) / 2 = pos
            · rw [hpe, hgpos']
              exact hP4 (by omega) j hj0 hjl hpe
            · rw [hgne _ hpe]
              exact hP2 j hj0 hjl hjanc hje
        have hQ3 : ∀ j, 0 < j → j < l'.length → (j - 1) / 2 = pp → x ≤ l'.getD j default := by
          intro j hj0 hjl hjp
          rw [hlen'] at hjl
          by_cases hje : j = pos
          · subst hje; rw [hgpos']; exact le_of_lt hlt
          · rw [hgne j hje]
            have := hP2 j hj0 hjl (hjp ▸ hancpp) hje
            rw [hjp] at this
            exact le_of_lt (lt_of_lt_of_le hlt this)
        have hQ4 : s ≠ pp → ∀ j, 0 < j → j < l'.length → (j - 1) / 2 = pp →
            l'.getD ((pp - 1) / 2) default ≤ l'.getD j default := by
          intro hsne j hj0 hjl hjp
          rw [hlen'] at hjl
          have h0pp : 0 < pp := by
            rcases Nat.eq_zero_or_pos pp with h | h
            · exfalso
              have := ancB_le hancpp
              omega
            · exact h
          have hgp : ancB s ((pp - 1) / 2) = true := by
            rcases ancB_elim hancpp with h | ⟨_, h⟩
            · omega
            · exact h
          have hgpne : (pp - 1) / 2 ≠ pos := by omega
          rw [hgne _ hgpne]
          have hedge : l.getD ((pp - 1) / 2) default ≤ parent :=
            hP2 pp h0pp hpplen hgp hppne
          by_cases hje : j = pos
          · subst hje; rw [hgpos']; exact hedge
          · rw [hgne j hje]
            have := hP2 j hj0 hjl (hjp ▸ hancpp) hje
            rw [hjp] at this
            exact le_trans hedge this
        obtain ⟨hA, hB, hC, hD⟩ :=
          ih pp hpplt l' (by omega) hancpp hQ2 hQ3 hQ4
        rw [hcall]
        refine ⟨by rw [hA, hlen'], ?_, ?_, ?_⟩
        · -- multiset accounting
          have hset : (l' : Multiset α) + {l.getD pos default} = (l : Multiset α) + {parent} :=
            set_mset default l pos parent hpos
          rw [hgne pp hppne] at hB
          apply add_right_cancel (b := ({parent} : Multiset α))
          calc ((siftdownLoop s x l' pp : List α) : Multiset α)
                + {l.getD pos default} + {parent}
              = ((siftdownLoop s x l' pp : List α) : Multiset α)
                + {parent} + {l.getD pos default} := add_right_comm _ _ _
            _ = (l' : Multiset α) + {x} + {l.getD pos default} := by rw [hB]
            _ = (l' : Multiset α) + {l.getD pos default} + {x} := add_right_comm _ _ _
            _ = (l : Multiset α) + {parent} + {x} := by rw [hset]
            _ = (l : Multiset α) + {x} + {parent} := add_right_comm _ _ _
        · intro j hj
          have hj' : ¬ (ancB j pp = true ∧ s ≤ j) := by
            rintro ⟨h1, h2⟩
            exact hj ⟨ancB_of_parent h0pos h1, h2⟩
          have hjne : j ≠ pos := by
            rintro rfl
            exact hj ⟨ancB_refl j, le_of_lt hs⟩
          rw [hC j hj', hgne j hjne]
        · intro j hj0 hjl hjanc
          exact hD j hj0 (by omega) hjanc
      · -- the parent is small enough: place x at the hole and stop
        have hcall : siftdownLoop s x l pos = l.set pos x := by
          rw [siftdownLoop, if_pos hs, if_neg hlt]
        rw [hcall]
        have hgpos : (l.set pos x).getD pos default = x := getD_set_eq default l pos x hpos
        have hgne : ∀ j, j ≠ pos → (l.set pos x).getD j default = l.getD j default := by
          intro j hj; exact getD_set_ne default l pos j x (fun h => hj h.symm)
        refine ⟨by simp, set_mset default l pos x hpos, ?_, ?_⟩
        · intro j hj
          have hjne : j ≠ pos := by
            rintro rfl
            exact hj ⟨ancB_refl j, le_of_lt hs⟩
          exact hgne j hjne
        · intro j hj0 hjl hjanc
          by_cases hje : j = pos
          · subst hje
            rw [show ((j - 1) / 2 : Nat) = pp from rfl, hgne pp hppne, hgpos]
            exact le_of_not_lt hlt
          · rw [hgne j hje]
            by_cases hpe : (j - 1) / 2 = pos
            · rw [hpe, hgpos]
              exact hP3 j hj0 hjl hpe
            · rw [hgne _ hpe]
              exact hP2 j hj0 hjl hjanc hje
    · -- pos = s: place x and stop
      have hse : s = pos := by
        have := ancB_le hanc
        omega
      have hcall : siftdownLoop s x l pos = l.set pos x := by
        rw [siftdownLoop, if_neg hs]
      rw [hcall]
      have hgpos : (l.set pos x).getD pos default = x := getD_set_eq default l pos x hpos
      have hgne : ∀ j, j ≠ pos → (l.set pos x).getD j default = l.getD j default := by
        intro j hj; exact getD_set_ne default l pos j x (fun h => hj h.symm)
      refine ⟨by simp, set_mset default l pos x hpos, ?_, ?_⟩
      · intro j hj
        have hjne : j ≠ pos := by
          rintro rfl
          exact hj ⟨ancB_refl j, by omega⟩
        exact hgne j hjne
      · intro j hj0 hjl hjanc
        by_cases hje : j = pos
        · subst hje
          exfalso
          have := ancB_le hjanc
          omega
        · rw [hgne j hje]
          by_cases hpe : (j - 1) / 2 = pos
          · rw [hpe, hgpos]
            exact hP3 j hj0 hjl hpe
          · rw [hgne _ hpe]
            exact hP2 j hj0 hjl hjanc hje

theorem chooseChild_lower (l : List α) (pos : Nat) : 2 * pos + 1 ≤ chooseChild l pos := by
  unfold chooseChild; split <;> omega

theorem chooseChild_upper (l : List α) (pos : Nat) : chooseChild l pos ≤ 2 * pos + 2 := by
  unfold chooseChild; split <;> omega

theorem chooseChild_lt (l : List α) (pos : Nat) (h : 2 * pos + 1 < l.length) :
    chooseChild l pos < l.length := by
  unfold chooseChild; split
  · omega
  · exact h

theorem chooseChild_parent (l : List α) (pos : Nat) :
    (chooseChild l pos - 1) / 2 = pos := by
  unfold chooseChild; split <;> omega

/-- The selected child is the smaller of the (at most two) children. -/
theorem chooseChild_le (l : List α) (pos : Nat) (j : Nat)
    (hj : j < l.length) (hpar : (j - 1) / 2 = pos) (hj0 : 0 < j) :
    l.getD (chooseChild l pos) default ≤ l.getD j default := by
  have hcases : j = 2 * pos + 1 ∨ j = 2 * pos + 2 := (parent_eq_iff hj0).1 hpar
  unfold chooseChild
  split
  · rename_i hcond
    rcases hcases with h | h
    · subst h; exact le_of_not_lt hcond.2
    · subst h; exact le_refl _
  · rename_i hcond
    rcases hcases with h | h
    · subst h; exact le_refl _
    · subst h
      rw [not_and_or, not_not] at hcond
      rcases hcond with h | h
      · omega
      · exact le_of_lt h

/-- The function `chooseChild` only looks at the two child slots and the length. -/
theorem chooseChild_set_out (l : List α) (c p : Nat) (v : α)
    (h1 : p ≠ 2 * c + 1) (h2 : p ≠ 2 * c + 2) :
    chooseChild (l.set p v) c = chooseChild l c := by
  unfold chooseChild
  rw [List.length_set, getD_set_ne default l p _ v h1, getD_set_ne default l p _ v h2]

/-- Full specification of the `_siftup` while-loop.  Given that every edge
strictly inside the subtree of `pos` is heap-ordered, the loop bubbles the
smaller-child chain up one level, returns the leaf `q` it reached (a
descendant of `pos`), changes nothing outside the subtree of `pos`, leaves
the slot at `q` with its old content, and keeps every subtree edge not
pointing into `q` heap-ordered; the multiset trades the old content of
`pos` for a duplicate of the old content of `q`. -/
theorem siftupLoop_spec (l : List α) (pos : Nat) :
    pos < l.length →
    (∀ j, 0 < j → j < l.length → ancB pos ((j - 1) / 2) = true → (j - 1) / 2 ≠ pos →
      l.getD ((j - 1) / 2) default ≤ l.getD j default) →
    (siftupLoop l pos).1.length = l.length ∧
    ancB pos (siftupLoop l pos).2 = true ∧
    (siftupLoop l pos).2 < l.length ∧
    l.length ≤ 2 * (siftupLoop l pos).2 + 1 ∧
    (∀ j, ¬ ancB pos j = true → (siftupLoop l pos).1.getD j default = l.getD j default) ∧
    (2 * pos + 1 < l.length →
      (siftupLoop l pos).1.getD pos default = l.getD (chooseChild l pos) default) ∧
    ((siftupLoop l pos).1.getD (siftupLoop l pos).2 default
      = l.getD (siftupLoop l pos).2 default) ∧
    (((siftupLoop l pos).1 : Multiset α) + {l.getD pos default}
      = (l : Multiset α) + {l.getD (siftupLoop l pos).2 default}) ∧
    (∀ j, 0 < j → j < l.length → ancB pos ((j - 1) / 2) = true → j ≠ (siftupLoop l pos).2 →
      (siftupLoop l pos).1.getD ((j - 1) / 2) default
        ≤ (siftupLoop l pos).1.getD j default) := by
  induction l, pos using siftupLoop.induct with
  | case1 l pos h c ihfun =>
    intro h1 hQ2
    have hcge : 2 * pos + 1 ≤ c := chooseChild_lower l pos
    have hcle : c ≤ 2 * pos + 2 := chooseChild_upper l pos
    have hclt : c < l.length := chooseChild_lt l pos h
    have hcpar : (c - 1) / 2 = pos := chooseChild_parent l pos
    have hancc : ancB pos c = true := by
      apply ancB_of_parent (by omega)
      rw [hcpar]; exact ancB_refl pos
    have hcall : siftupLoop l pos = siftupLoop (l.set pos (l.getD c default)) c := by
      rw [siftupLoop]
      simp only [dif_pos h]
    set l' := l.set pos (l.getD c default) with hl'
    have hlen' : l'.length = l.length := by simp [hl']
    have hgpos' : l'.getD pos default = l.getD c default := getD_set_eq default l pos _ h1
    have hgne : ∀ j, j ≠ pos → l'.getD j default = l.getD j default := by
      intro j hj; exact getD_set_ne default l pos j _ (fun hh => hj hh.symm)
    have hpre : ∀ j, 0 < j → j < l'.length → ancB c ((j - 1) / 2) = true →
        (j - 1) / 2 ≠ c → l'.getD ((j - 1) / 2) default ≤ l'.getD j default := by
      -- the premise of the inductive hypothesis: edges strictly inside the
      -- subtree of `c` are heap-ordered in `l'`
      intro j hj0 hjl hjanc hjne
      rw [hlen'] at hjl
      have hparc : c ≤ (j - 1) / 2 := ancB_le hjanc
      have hjge : c < j := by omega
      rw [hgne j (by omega), hgne _ (by omega)]
      exact hQ2 j hj0 hjl (ancB_trans hancc hjanc) (by omega)
    obtain ⟨A_len, A_anc, A_lt, A_leaf, A_out, A_r3, A_final, A_mset, A_edges⟩ :=
      ihfun (by omega) hpre
    rw [hcall]
    set r := siftupLoop l' c with hr
    have hq_ge : c ≤ r.2 := ancB_le A_anc
    have hq_ne_pos : r.2 ≠ pos := by omega
    have hnotanc_c_pos : ¬ ancB c pos = true := by
      intro hh; have := ancB_le hh; omega
    have hout : ∀ j, ¬ ancB pos j = true → r.1.getD j default = l.getD j default := by
      intro j hj
      have : ¬ ancB c j = true := fun hh => hj (ancB_trans hancc hh)
      rw [A_out j this, hgne j (fun hh => hj (hh ▸ ancB_refl pos))]
    have hr3 : r.1.getD pos default = l.getD c default := by
      rw [A_out pos hnotanc_c_pos, hgpos']
    refine ⟨by rw [A_len, hlen'], ancB_trans hancc A_anc, by omega, by omega,
      hout, fun _ => hr3, ?_, ?_, ?_⟩
    · rw [A_final, hgne _ hq_ne_pos]
    · -- multiset bookkeeping
      have hgc' : l'.getD c default = l.getD c default := hgne c (by omega)
      have hgq' : l'.getD r.2 default = l.getD r.2 default := hgne _ hq_ne_pos
      rw [hgc', hgq'] at A_mset
      have hset : (l' : Multiset α) + {l.getD pos default}
          = (l : Multiset α) + {l.getD c default} := set_mset default l pos _ h1
      apply add_right_cancel (b := ({l.getD c default} : Multiset α))
      calc (r.1 : Multiset α) + {l.getD pos default} + {l.getD c default}
          = (r.1 : Multiset α) + {l.getD c default} + {l.getD pos default} :=
            add_right_comm _ _ _
        _ = (l' : Multiset α) + {l.getD r.2 default} + {l.getD pos default} := by
            rw [A_mset]
        _ = (l' : Multiset α) + {l.getD pos default} + {l.getD r.2 default} :=
            add_right_comm _ _ _
        _ = (l : Multiset α) + {l.getD c default} + {l.getD r.2 default} := by
            rw [hset]
        _ = (l : Multiset α) + {l.getD r.2 default} + {l.getD c default} :=
            add_right_comm _ _ _
    · -- heap order on every subtree edge not pointing into the final leaf
      intro j hj0 hjl hjanc hjq
      rcases ancB_cases hjanc with hpar | hsub
      · -- the edge leaves `pos` itself: `j` is one of the two children
        have hjc : j = 2 * pos + 1 ∨ j = 2 * pos + 2 := (parent_eq_iff hj0).1 hpar
        rw [hpar, hr3]
        by_cases hjec : j = c
        · -- the edge into the path: relate to the next chosen child
          rw [hjec]
          by_cases hcleaf : 2 * c + 1 < l.length
          · have hval : r.1.getD c default = l'.getD (chooseChild l' c) default :=
              A_r3 (by omega)
            have hch : chooseChild l' c = chooseChild l c := by
              apply chooseChild_set_out
              · omega
              · omega
            have hc2lt : chooseChild l c < l.length := chooseChild_lt l c hcleaf
            have hc2par : (chooseChild l c - 1) / 2 = c := chooseChild_parent l c
            have hc2ge : 2 * c + 1 ≤ chooseChild l c := chooseChild_lower l c
            have hedge : l.getD c default ≤ l.getD (chooseChild l c) default := by
              have := hQ2 (chooseChild l c) (by omega) hc2lt
                (by rw [hc2par]; exact hancc) (by omega)
              rwa [hc2par] at this
            rw [hval, hch, hgne _ (by omega)]
            exact hedge
          · -- `c` is a leaf: the loop stopped there, contradicting `j ≠ r.2`
            exfalso
            apply hjq
            have hstop : siftupLoop l' c = (l', c) := by
              rw [siftupLoop]
              have hno : ¬ 2 * c + 1 < l'.length := by omega
              simp only [dif_neg hno]
            rw [hjec, hr, hstop]
        · -- the edge into the sibling of the chosen child
          have hsne : ¬ ancB c j = true := by
            intro hh
            rcases ancB_elim hh with h' | ⟨_, h'⟩
            · exact hjec h'.symm
            · rw [hpar] at h'
              have := ancB_le h'
              omega
          rw [A_out j hsne, hgne j (by omega)]
          exact chooseChild_le l pos j hjl hpar hj0
      · -- the edge lies inside the subtree of a child of `pos`
        set par := (j - 1) / 2 with hpardef
        have hparpos : pos ≤ par := by
          rcases hsub with h' | h' <;>
            · have := ancB_le h'
              omega
        by_cases hinc : ancB c par = true
        · -- inside the subtree of the chosen child: inductive conclusion
          have := A_edges j hj0 (by omega) hinc hjq
          exact this
        · -- inside the subtree of the sibling: untouched, use the original edge
          have hparne : par ≠ pos := by
            intro hh
            rcases hsub with h' | h' <;>
              · rw [hh] at h'
                have := ancB_le h'
                omega
          have hjanc2 : ¬ ancB c j = true := by
            intro hh
            rcases ancB_elim hh with h' | ⟨_, h'⟩
            · -- j = c: then the parent of j is pos, contradiction
              apply hparne
              rw [hpardef, ← h']
              exact hcpar
            · exact hinc h'
          have hparanc2 : ¬ ancB c par = true := hinc
          rw [A_out j hjanc2, A_out par hparanc2, hgne j (by omega),
            hgne par (fun hh => hparne hh)]
          exact hQ2 j hj0 hjl hjanc hparne
  | case2 l pos h =>
    intro h1 hQ2
    have hcall : siftupLoop l pos = (l, pos) := by
      rw [siftupLoop]
      simp only [dif_neg h]
    rw [hcall]
    refine ⟨rfl, ancB_refl pos, h1, by omega, fun _ _ => rfl, by omega, rfl, rfl, ?_⟩
    intro j hj0 hjl hjanc hjq
    exfalso
    have := ancB_le hjanc
    omega

/-- Full specification of `_siftup(heap, pos)`: under heap-order of all
edges strictly inside the subtree of `pos`, it permutes nothing in and out
of the array, changes nothing outside the subtree of `pos`, and restores
heap order on every edge whose parent is inside the subtree of `pos`. -/
theorem siftup_spec (l : List α) (pos : Nat)
    (h1 : pos < l.length)
    (hQ2 : ∀ j, 0 < j → j < l.length → ancB pos ((j - 1) / 2) = true → (j - 1) / 2 ≠ pos →
      l.getD ((j - 1) / 2) default ≤ l.getD j default) :
    (siftup l pos).length = l.length ∧
    ((siftup l pos : List α) : Multiset α) = (l : Multiset α) ∧
    (∀ j, ¬ ancB pos j = true → (siftup l pos).getD j default = l.getD j default) ∧
    (∀ j, 0 < j → j < l.length → ancB pos ((j - 1) / 2) = true →
      (siftup l pos).getD ((j - 1) / 2) default ≤ (siftup l pos).getD j default) := by
  obtain ⟨U_len, U_anc, U_lt, U_leaf, U_out, _, U_final, U_mset, U_edges⟩ :=
    siftupLoop_spec l pos h1 hQ2
  set newitem := l.getD pos default with hnew
  set l2 := (siftupLoop l pos).1 with hl2
  set q := (siftupLoop l pos).2 with hq
  set l3 := l2.set q newitem with hl3
  have hcall : siftup l pos = siftdownLoop pos newitem l3 q := by
    rw [siftup]
  have hlen3 : l3.length = l.length := by simp [hl3, U_len]
  have hqlen2 : q < l2.length := by omega
  have hg3q : l3.getD q default = newitem := getD_set_eq default l2 q newitem hqlen2
  have hg3ne : ∀ j, j ≠ q → l3.getD j default = l2.getD j default := by
    intro j hj; exact getD_set_ne default l2 q j newitem (fun hh => hj hh.symm)
  obtain ⟨D_len, D_mset, D_out, D_edges⟩ :=
    siftdownLoop_spec pos newitem q l3 (by omega) U_anc
      (by
        intro j hj0 hjl hjanc hjne
        rw [hlen3] at hjl
        have hparne : (j - 1) / 2 ≠ q := by omega
        rw [hg3ne j hjne, hg3ne _ hparne]
        exact U_edges j hj0 hjl hjanc hjne)
      (by
        intro j hj0 hjl hjp
        rw [hlen3] at hjl
        omega)
      (by
        intro _ j hj0 hjl hjp
        rw [hlen3] at hjl
        omega)
  rw [hcall]
  have hmset3 : (l3 : Multiset α) = (l : Multiset α) := by
    have hset : (l3 : Multiset α) + {l2.getD q default} = (l2 : Multiset α) + {newitem} :=
      set_mset default l2 q newitem hqlen2
    rw [U_final] at hset
    apply add_right_cancel (b := ({l.getD q default} : Multiset α))
    rw [hset, hnew, U_mset]
  refine ⟨by rw [D_len, hlen3], ?_, ?_, ?_⟩
  · rw [hg3q] at D_mset
    have := add_right_cancel D_mset
    rw [this, hmset3]
  · intro j hj
    have hcond : ¬ (ancB j q = true ∧ pos ≤ j) := by
      rintro ⟨hh1, hh2⟩
      rcases ancB_total U_anc hh1 with h' | h'
      · exact hj h'
      · have := ancB_le h'
        have hje : j = pos := by omega
        exact hj (hje ▸ ancB_refl pos)
    have hjq : j ≠ q := by
      rintro rfl
      exact hj U_anc
    rw [D_out j hcond, hg3ne j hjq, U_out j hj]
  · intro j hj0 hjl hjanc
    exact D_edges j hj0 (by omega) hjanc

/-- Lemma: `heappush` preserves the heap invariant and adds the item. -/
theorem heappush_spec (l : List α) (x : α) (h : IsHeap l) :
    IsHeap (heappush l x) ∧
    ((heappush l x : List α) : Multiset α) = (l : Multiset α) + {x} ∧
    (heappush l x).length = l.length + 1 := by
  have hlen : (l ++ [x]).length = l.length + 1 := by simp
  obtain ⟨D_len, D_mset, _, D_edges⟩ :=
    siftdownLoop_spec 0 x l.length (l ++ [x]) (by omega) (ancB_zero _)
      (by
        intro j hj0 hjl hjanc hjne
        rw [hlen] at hjl
        have hjlt : j < l.length := by omega
        rw [getD_append_left default l [x] j hjlt, getD_append_left default l [x] _ (by omega)]
        exact h j hj0 hjlt)
      (by
        intro j hj0 hjl hjp
        rw [hlen] at hjl
        omega)
      (by
        intro _ j hj0 hjl hjp
        rw [hlen] at hjl
        omega)
  have hpush : heappush l x = siftdownLoop 0 x (l ++ [x]) l.length := rfl
  rw [hpush]
  refine ⟨?_, ?_, by omega⟩
  · intro j hj0 hjl
    exact D_edges j hj0 (by omega) (ancB_zero _)
  · rw [getD_append_right_self default] at D_mset
    have := add_right_cancel D_mset
    rw [this]
    have : ((l ++ [x] : List α) : Multiset α) = (l : Multiset α) + ([x] : List α) := by
      exact_mod_cast (Multiset.coe_add l [x]).symm
    rw [this]
    rfl

/-- Lemma: `heappop` on an empty heap returns `none`. -/
theorem heappop_nil : heappop ([] : List α) = none := rfl

/-- Lemma: `heappop` on a non-empty heap returns the root, removes exactly it, and
preserves the heap invariant. -/
theorem heappop_spec (l : List α) (h : IsHeap l) (hne : l ≠ []) :
    ∃ a l2, heappop l = some (a, l2) ∧ a = l.getD 0 default ∧
      IsHeap l2 ∧ (l2 : Multiset α) + {a} = (l : Multiset α) ∧
      l2.length = l.length - 1 := by
  have hlast : l.getLast? = some (l.getLast hne) := List.getLast?_eq_getLast l hne
  have hdecomp : l.dropLast ++ [l.getLast hne] = l := List.dropLast_append_getLast hne
  have hlenl : 0 < l.length := List.length_pos.2 hne
  by_cases hrest : l.dropLast.isEmpty
  · -- singleton heap
    have hrest' : l.dropLast = [] := List.isEmpty_iff.1 hrest
    have hsingle : l = [l.getLast hne] := by
      conv_lhs => rw [← hdecomp, hrest']
      simp
    refine ⟨l.getLast hne, l.dropLast, ?_, ?_, ?_, ?_, ?_⟩
    · rw [heappop, hlast]
      simp [hrest]
    · conv_rhs => rw [hsingle]
      rfl
    · rw [hrest']; exact isHeap_nil
    · rw [hrest']
      conv_rhs => rw [hsingle]
      rfl
    · rw [hrest', hsingle]
      rfl
  · -- general case: move the last leaf to the root and sift up
    have hrestne : l.dropLast ≠ [] := fun hh => hrest (by simp [hh])
    have hrlen : 0 < l.dropLast.length := List.length_pos.2 hrestne
    have hrlen2 : l.dropLast.length = l.length - 1 := by simp [List.length_dropLast]
    set lastelt := l.getLast hne with hlastdef
    set st := l.dropLast.set 0 lastelt with hst
    have hstlen : st.length = l.length - 1 := by simp [hst, hrlen2]
    obtain ⟨S_len, S_mset, _, S_edges⟩ :=
      siftup_spec st 0 (by omega)
        (by
          intro j hj0 hjl hjanc hjne
          rw [hstlen] at hjl
          have hjne0 : j ≠ 0 := by omega
          rw [hst, getD_set_ne default _ _ _ _ (fun hh => hjne hh.symm),
            getD_set_ne default _ _ _ _ (fun hh => hjne0 hh.symm)]
          rw [getD_dropLast default l j (by omega), getD_dropLast default l _ (by omega)]
          exact h j hj0 (by omega))
    refine ⟨l.dropLast.getD 0 default, siftup st 0, ?_, ?_, ?_, ?_, ?_⟩
    · rw [heappop, hlast]
      simp only [hrest, Bool.false_eq_true, if_false]
    · exact getD_dropLast default l 0 (by omega)
    · intro j hj0 hjl
      rw [S_len, hstlen] at hjl
      exact S_edges j hj0 (by omega) (ancB_zero _)
    · rw [S_mset]
      have hsetm : (st : Multiset α) + {l.dropLast.getD 0 default}
          = ((l.dropLast : List α) : Multiset α) + {lastelt} :=
        set_mset default l.dropLast 0 lastelt (by omega)
      rw [hsetm]
      have : ((l.dropLast : List α) : Multiset α) + {lastelt}
          = ((l.dropLast ++ [lastelt] : List α) : Multiset α) := by
        exact_mod_cast Multiset.coe_add l.dropLast [lastelt]
      rw [this, hdecomp]
    · rw [S_len, hstlen]

/-- Lemma: `heapify` establishes the heap invariant on an arbitrary list without
changing its contents. -/
theorem heapifyAux_spec : ∀ (k : Nat) (l : List α), k ≤ l.length / 2 → HeapFrom k l →
    IsHeap (heapifyAux l k) ∧
    ((heapifyAux l k : List α) : Multiset α) = (l : Multiset α) ∧
    (heapifyAux l k).length = l.length := by
  intro k
  induction k with
  | zero =>
    intro l _ hheap
    exact ⟨(isHeap_iff_heapFrom_zero l).2 hheap, rfl, rfl⟩
  | succ k ihk =>
    intro l hk hheap
    have hklt : k < l.length := by omega
    obtain ⟨S_len, S_mset, S_out, S_edges⟩ :=
      siftup_spec l k hklt
        (by
          intro j hj0 hjl hjanc hjne
          have := ancB_le hjanc
          exact hheap j hj0 hjl (by omega))
    have hnext : HeapFrom k (siftup l k) := by
      intro j hj0 hjl hge
      rw [S_len] at hjl
      by_cases hanc : ancB k ((j - 1) / 2) = true
      · exact S_edges j hj0 hjl hanc
      · have hjne : ¬ ancB k j = true := by
          intro hh
          rcases ancB_elim hh with h' | ⟨_, h'⟩
          · omega
          · exact hanc h'
        have hparne : (j - 1) / 2 ≠ k := by
          intro hh
          exact hanc (hh ▸ ancB_refl k)
        rw [S_out j hjne, S_out _ hanc]
        exact hheap j hj0 hjl (by omega)
    have hcall : heapifyAux l (k + 1) = heapifyAux (siftup l k) k := rfl
    obtain ⟨B1, B2, B3⟩ := ihk (siftup l k) (by omega) hnext
    rw [hcall]
    exact ⟨B1, by rw [B2, S_mset], by rw [B3, S_len]⟩

theorem heapify_spec (l : List α) :
    IsHeap (heapify l) ∧
    ((heapify l : List α) : Multiset α) = (l : Multiset α) ∧
    (heapify l).length = l.length := by
  apply heapifyAux_spec (l.length / 2) l (le_refl _)
  intro j hj0 hjl hge
  omega

/-- In a heap the root is a lower bound for every slot. -/
theorem isHeap_root_le (l : List α) (h : IsHeap l) :
    ∀ j, j < l.length → l.getD 0 default ≤ l.getD j default := by
  intro j
  induction j using Nat.strong_induction_on with
  | _ j ih =>
    intro hj
    rcases Nat.eq_zero_or_pos j with hj0 | hj0
    · subst hj0; exact le_refl _
    · exact le_trans (ih ((j - 1) / 2) (by omega) (by omega)) (h j hj0 hj)

theorem isHeap_root_le_mem (l : List α) (h : IsHeap l) :
    ∀ y ∈ l, l.getD 0 default ≤ y := by
  intro y hy
  rcases (mem_iff_getD default l y).1 hy with ⟨j, hj, he⟩
  exact he ▸ isHeap_root_le l h j hj

/-- Draining a heap by repeated `heappop` (the fuel is the length). -/
def drainAux : Nat → List α → List α
  | 0, _ => []
  | fuel + 1, l =>
    match heappop l with
    | none => []
    | some (a, l2) => a :: drainAux fuel l2

def drain (l : List α) : List α :=
  drainAux l.length l

theorem drainAux_spec : ∀ (fuel : Nat) (l : List α), l.length ≤ fuel → IsHeap l →
    List.Sorted (· ≤ ·) (drainAux fuel l) ∧
    ((drainAux fuel l : List α) : Multiset α) = (l : Multiset α) := by
  intro fuel
  induction fuel with
  | zero =>
    intro l hl _
    have : l = [] := List.length_eq_zero.1 (by omega)
    subst this
    exact ⟨List.sorted_nil, rfl⟩
  | succ fuel ihf =>
    intro l hl hheap
    by_cases hne : l = []
    · subst hne
      exact ⟨List.sorted_nil, rfl⟩
    · obtain ⟨a, l2, hpop, ha, hheap2, hmset, hlen2⟩ := heappop_spec l hheap hne
      have hcall : drainAux (fuel + 1) l = a :: drainAux fuel l2 := by
        rw [drainAux, hpop]
      obtain ⟨T_sorted, T_mset⟩ := ihf l2 (by omega) hheap2
      rw [hcall]
      constructor
      · rw [List.sorted_cons]
        refine ⟨?_, T_sorted⟩
        intro b hb
        have hb2 : b ∈ l2 := by
          have : (b : α) ∈ ((drainAux fuel l2 : List α) : Multiset α) := by
            exact_mod_cast hb
          rw [T_mset] at this
          exact_mod_cast this
        have hbl : b ∈ l := by
          have : (b : α) ∈ ((l2 : List α) : Multiset α) := by exact_mod_cast hb2
          have hle : ((l2 : List α) : Multiset α) ≤ (l : Multiset α) := by
            rw [← hmset]
            exact Multiset.le_add_right _ _
          have := Multiset.mem_of_le hle this
          exact_mod_cast this
        exact ha ▸ isHeap_root_le_mem l hheap b hbl
      · show (a ::ₘ ((drainAux fuel l2 : List α) : Multiset α)) = (l : Multiset α)
        rw [T_mset, ← hmset]
        rw [add_comm, Multiset.singleton_add]

theorem drain_spec (l : List α) (h : IsHeap l) :
    List.Sorted (· ≤ ·) (drain l) ∧ ((drain l : List α) : Multiset α) = (l : Multiset α) :=
  drainAux_spec l.length l (le_refl _) h

end Heapq

/-! ## PriorityQueue

`PriorityQueue` (src/jcollections/priorityqueue.py) keeps a Python list
`_heap` ordered by the heapq primitives.  Without a comparator the heap
holds the raw elements under their natural order; with a comparator
`add(e)` pushes the 2-tuple `(comparator(e), e)`, which Python compares
lexicographically — modelled by `Entry` below with the corresponding
lexicographic linear order. -/

/-- A stored `(priorityKey, element)` 2-tuple of the comparator mode. -/
structure Entry (κ α : Type) where
  key : κ
  elem : α
deriving DecidableEq, Repr

instance {κ α : Type} [Inhabited κ] [Inhabited α] : Inhabited (Entry κ α) :=
  ⟨⟨default, default⟩⟩

/-- Python tuple comparison on 2-tuples of totally ordered components is
lexicographic. -/
instance {κ α : Type} [LinearOrder κ] [LinearOrder α] : LinearOrder (Entry κ α) where
  le x y := x.key < y.key ∨ (x.key = y.key ∧ x.elem ≤ y.elem)
  le_refl x := Or.inr ⟨rfl, le_refl _⟩
  le_trans x y z hxy hyz := by
    rcases hxy with h1 | ⟨h1, h1'⟩
    · rcases hyz with h2 | ⟨h2, h2'⟩
      · exact Or.inl (lt_trans h1 h2)
      · exact Or.inl (h2 ▸ h1)
    · rcases hyz with h2 | ⟨h2, h2'⟩
      · exact Or.inl (h1 ▸ h2)
      · exact Or.inr ⟨h1.trans h2, le_trans h1' h2'⟩
  le_antisymm x y hxy hyx := by
    rcases hxy with h1 | ⟨h1, h1'⟩
    · rcases hyx with h2 | ⟨h2, h2'⟩
      · exact absurd (lt_trans h1 h2) (lt_irrefl _)
      · rw [h2] at h1
        exact absurd h1 (lt_irrefl _)
    · rcases hyx with h2 | ⟨h2, h2'⟩
      · rw [h1] at h2
        exact absurd h2 (lt_irrefl _)
      · cases x; cases y
        simp only [Entry.mk.injEq]
        exact ⟨h1, le_antisymm h1' h2'⟩
  le_total x y := by
    rcases lt_trichotomy x.key y.key with h | h | h
    · exact Or.inl (Or.inl h)
    · rcases le_total x.elem y.elem with h' | h'
      · exact Or.inl (Or.inr ⟨h, h'⟩)
      · exact Or.inr (Or.inr ⟨h.symm, h'⟩)
    · exact Or.inr (Or.inl h)
  decidableLE x y := inferInstanceAs (Decidable (_ ∨ _))

theorem entry_le_iff {κ α : Type} [LinearOrder κ] [LinearOrder α] (x y : Entry κ α) :
    x ≤ y ↔ (x.key < y.key ∨ (x.key = y.key ∧ x.elem ≤ y.elem)) :=
  Iff.rfl

/-- The lexicographic order is monotone in the key. -/
theorem entry_le_key {κ α : Type} [LinearOrder κ] [LinearOrder α] {x y : Entry κ α}
    (h : x ≤ y) : x.key ≤ y.key := by
  rcases (entry_le_iff x y).1 h with h' | ⟨h', _⟩
  · exact le_of_lt h'
  · exact le_of_eq h'

/-- View of a Python object as it is compared by `o in self._heap` /
`self._heap.remove(o)`: stored heap entries of a comparator queue are
2-tuple objects, the probe is the raw element object. -/
inductive PyObj (κ α : Type) where
  | scalar (e : α)
  | pair (k : κ) (e : α)
deriving DecidableEq

/-- Python `==` between the raw probe and a stored `(key, element)` tuple:
a non-tuple object never equals a tuple. -/
def pyEqProbeEntry {κ α : Type} [DecidableEq κ] [DecidableEq α] (o : α) (p : Entry κ α) : Bool :=
  decide (PyObj.scalar (κ := κ) o = PyObj.pair p.key p.elem)

theorem pyEqProbeEntry_false {κ α : Type} [DecidableEq κ] [DecidableEq α]
    (o : α) (p : Entry κ α) : pyEqProbeEntry o p = false := by
  simp [pyEqProbeEntry]

/-- Embedding of `PriorityQueue` without a comparator: `_heap` holds raw elements. -/
structure PQn (α : Type) where
  heap : List α
deriving DecidableEq, Repr

/-- Embedding of `PriorityQueue` with a comparator: `_heap` holds `(key, element)` tuples. -/
structure PQc (κ α : Type) where
  heap : List (Entry κ α)
deriving DecidableEq, Repr

namespace PQn

variable {α : Type} [LinearOrder α] [Inhabited α]

/-- Embedding of `PriorityQueue.add` (no comparator): `heappush(self._heap, e)`. -/
def add (q : PQn α) (e : α) : PQn α × Bool :=
  (⟨heappush q.heap e⟩, true)

/-- Embedding of `PriorityQueue.isEmpty`: `len(self._heap) == 0`. -/
def isEmpty (q : PQn α) : Bool :=
  q.heap.length == 0

/-- Embedding of `PriorityQueue.size`. -/
def size (q : PQn α) : Nat :=
  q.heap.length

/-- Embedding of `PriorityQueue.peek`: `None` when empty, else `self._heap[0]`. -/
def peek (q : PQn α) : Option α :=
  if q.heap.length = 0 then none else some (q.heap.getD 0 default)

/-- Embedding of `PriorityQueue.poll`: `None` (heap untouched) when empty, else
`heappop(self._heap)`.  `heappop` returns `none` exactly on the empty heap,
so the two guards coincide. -/
def poll (q : PQn α) : Option α × PQn α :=
  match heappop q.heap with
  | none => (none, q)
  | some (a, h) => (some a, ⟨h⟩)

/-- Embedding of `PriorityQueue.contains`: `o in self._heap`. -/
def contains (q : PQn α) (o : α) : Bool :=
  decide (o ∈ q.heap)

/-- Embedding of `PriorityQueue.remove`: `self._heap.remove(o)` (first occurrence,
ValueError caught as False) followed by `heapify`. -/
def remove (q : PQn α) (o : α) : PQn α × Bool :=
  if o ∈ q.heap then (⟨heapify (q.heap.erase o)⟩, true) else (q, false)

/-- Embedding of `PriorityQueue.element`: raises on an empty queue, else `peek`. -/
def element (q : PQn α) : Except JErr (Option α) :=
  if q.heap.length = 0 then .error .emptyCollection else .ok (peek q)

end PQn

/-- A push or poll step against a priority queue. -/
inductive PQOp (α : Type) where
  | push (x : α)
  | poll
deriving DecidableEq, Repr

/-- Run a sequence of push/poll operations on an initially empty
no-comparator queue. -/
def PQn.runN {α : Type} [LinearOrder α] [Inhabited α] (ops : List (PQOp α)) : PQn α :=
  ops.foldl (fun q op =>
    match op with
    | .push x => (q.add x).1
    | .poll => (q.poll).2) ⟨[]⟩

namespace PQc

variable {κ α : Type} [LinearOrder κ] [LinearOrder α] [Inhabited κ] [Inhabited α]

/-- Embedding of `PriorityQueue.add` with comparator `c`:
`heappush(self._heap, (self.comparator(e), e))`. -/
def add (c : α → κ) (q : PQc κ α) (e : α) : PQc κ α × Bool :=
  (⟨heappush q.heap ⟨c e, e⟩⟩, true)

def size (q : PQc κ α) : Nat :=
  q.heap.length

/-- Embedding of `PriorityQueue.peek` with comparator: `self._heap[0][1]` or `None`. -/
def peek (q : PQc κ α) : Option α :=
  if q.heap.length = 0 then none else some ((q.heap.getD 0 default).elem)

/-- Embedding of `PriorityQueue.poll` with comparator: `heappop(self._heap)[1]` or `None`. -/
def poll (q : PQc κ α) : Option α × PQc κ α :=
  match heappop q.heap with
  | none => (none, q)
  | some (p, h) => (some p.elem, ⟨h⟩)

/-- The elements currently held by a comparator queue (the second tuple
components of the stored pairs). -/
def heldElems (q : PQc κ α) : List α :=
  q.heap.map Entry.elem

/-- Embedding of `PriorityQueue.contains` with comparator: `o in self._heap` compares the
raw probe against the stored tuples. -/
def contains (q : PQc κ α) (o : α) : Bool :=
  q.heap.any (pyEqProbeEntry o)

/-- Embedding of `PriorityQueue.remove` with comparator: `self._heap.remove(o)` — remove
the first stored object equal (as a Python object) to `o`, re-heapify, and
return True; return False on ValueError (no equal object). -/
def remove (q : PQc κ α) (o : α) : PQc κ α × Bool :=
  if q.heap.any (pyEqProbeEntry o) then
    (⟨heapify (q.heap.eraseP (pyEqProbeEntry o))⟩, true)
  else
    (q, false)

/-- Embedding of `PriorityQueue.element` with comparator: raises on an
empty queue, else `peek`. -/
def element (q : PQc κ α) : Except JErr (Option α) :=
  if q.heap.length = 0 then .error .emptyCollection else .ok (peek q)

/-- Run a sequence of push/poll operations on an initially empty
comparator queue. -/
def runC (c : α → κ) (ops : List (PQOp α)) : PQc κ α :=
  ops.foldl (fun q op =>
    match op with
    | .push x => (add c q x).1
    | .poll => (poll q).2) ⟨[]⟩

end PQc

/-- The no-comparator run maintains the heap invariant. -/
theorem pqn_runN_isHeap {α : Type} [LinearOrder α] [Inhabited α] (ops : List (PQOp α)) :
    IsHeap (PQn.runN ops).heap := by
  suffices h : ∀ (ops : List (PQOp α)) (q : PQn α), IsHeap q.heap →
      IsHeap (ops.foldl (fun q op =>
        match op with
        | .push x => (q.add x).1
        | .poll => (q.poll).2) q).heap by
    exact h ops ⟨[]⟩ isHeap_nil
  intro ops
  induction ops with
  | nil => intro q hq; exact hq
  | cons op ops ih =>
    intro q hq
    apply ih
    cases op with
    | push x =>
      exact (heappush_spec q.heap x hq).1
    | poll =>
      show IsHeap (q.poll).2.heap
      rw [PQn.poll]
      by_cases hne : q.heap = []
      · rw [hne, heappop_nil]
        exact hne ▸ hq
      · obtain ⟨a, l2, hpop, _, hheap2, _, _⟩ := heappop_spec q.heap hq hne
        rw [hpop]
        exact hheap2

/-- The comparator run maintains the heap invariant and stores only pairs
of the shape `(c e, e)`. -/
theorem pqc_runC_inv {κ α : Type} [LinearOrder κ] [LinearOrder α] [Inhabited κ] [Inhabited α]
    (c : α → κ) (ops : List (PQOp α)) :
    IsHeap (PQc.runC c ops).heap ∧
    ∀ p ∈ (PQc.runC c ops).heap, p.key = c p.elem := by
  suffices h : ∀ (ops : List (PQOp α)) (q : PQc κ α),
      IsHeap q.heap → (∀ p ∈ q.heap, p.key = c p.elem) →
      IsHeap (ops.foldl (fun q op =>
        match op with
        | .push x => (PQc.add c q x).1
        | .poll => (PQc.poll q).2) q).heap ∧
      ∀ p ∈ (ops.foldl (fun q op =>
        match op with
        | .push x => (PQc.add c q x).1
        | .poll => (PQc.poll q).2) q).heap, p.key = c p.elem by
    exact h ops ⟨[]⟩ isHeap_nil (by intro p hp; simp at hp)
  intro ops
  induction ops with
  | nil => intro q hq hshape; exact ⟨hq, hshape⟩
  | cons op ops ih =>
    intro q hq hshape
    refine ih _ ?_ ?_
    · cases op with
      | push x =>
        exact (heappush_spec q.heap ⟨c x, x⟩ hq).1
      | poll =>
        show IsHeap (PQc.poll q).2.heap
        rw [PQc.poll]
        by_cases hne : q.heap = []
        · rw [hne, heappop_nil]
          exact hne ▸ hq
        · obtain ⟨a, l2, hpop, _, hheap2, _, _⟩ := heappop_spec q.heap hq hne
          rw [hpop]
          exact hheap2
    · cases op with
      | push x =>
        intro p hp
        have hmem : (p : Entry κ α) ∈ ((heappush q.heap ⟨c x, x⟩ : List (Entry κ α)) : Multiset (Entry κ α)) := by
          exact_mod_cast hp
        rw [(heappush_spec q.heap ⟨c x, x⟩ hq).2.1] at hmem
        rcases Multiset.mem_add.1 hmem with hm | hm
        · exact hshape p (by exact_mod_cast hm)
        · have : p = ⟨c x, x⟩ := by simpa using hm
          rw [this]
      | poll =>
        intro p hp
        revert hp
        show p ∈ (PQc.poll q).2.heap → _
        rw [PQc.poll]
        by_cases hne : q.heap = []
        · rw [hne, heappop_nil]
          intro hp
          exact hshape p (hne ▸ hp)
        · obtain ⟨a, l2, hpop, _, _, hmset, _⟩ := heappop_spec q.heap hq hne
          rw [hpop]
          intro hp
          apply hshape
          have hm : (p : Entry κ α) ∈ ((l2 : List (Entry κ α)) : Multiset (Entry κ α)) := by
            exact_mod_cast hp
          have hle : ((l2 : List (Entry κ α)) : Multiset (Entry κ α)) ≤ (q.heap : Multiset (Entry κ α)) := by
            rw [← hmset]
            exact Multiset.le_add_right _ _
          have := Multiset.mem_of_le hle hm
          exact_mod_cast this

/-- Lemma: `heapify` does not change membership. -/
theorem mem_heapify {α : Type} [LinearOrder α] [Inhabited α] (l : List α) (o : α) :
    o ∈ heapify l ↔ o ∈ l := by
  have hm := (heapify_spec l).2.1
  constructor
  · intro h
    have h2 : (o : α) ∈ ((heapify l : List α) : Multiset α) := by exact_mod_cast h
    rw [hm] at h2
    exact_mod_cast h2
  · intro h
    have h2 : (o : α) ∈ ((l : List α) : Multiset α) := by exact_mod_cast h
    rw [← hm] at h2
    exact_mod_cast h2

/-- On a heap, a successful `poll` returns a held element that is a lower
bound of everything held. -/
theorem pqn_poll_min {α : Type} [LinearOrder α] [Inhabited α]
    (q : PQn α) (hq : IsHeap q.heap) (a : α) (h : (q.poll).1 = some a) :
    a ∈ q.heap ∧ ∀ y ∈ q.heap, a ≤ y := by
  by_cases hne : q.heap = []
  · exfalso
    have hnone : heappop q.heap = none := by rw [hne]; exact heappop_nil
    rw [PQn.poll, hnone] at h
    simp at h
  · obtain ⟨a0, l2, hpop, ha0, _, _, _⟩ := heappop_spec q.heap hq hne
    rw [PQn.poll, hpop] at h
    have haa : a = a0 := by simpa using h.symm
    subst haa
    have hlen : 0 < q.heap.length := List.length_pos.2 hne
    refine ⟨?_, ?_⟩
    · rw [ha0]
      exact (mem_iff_getD default q.heap _).2 ⟨0, hlen, rfl⟩
    · intro y hy
      exact ha0 ▸ isHeap_root_le_mem q.heap hq y hy

/-- On a comparator heap of `(c e, e)` pairs, a successful `poll` returns a
held element whose comparator key is a lower bound of all held keys. -/
theorem pqc_poll_min {κ α : Type} [LinearOrder κ] [LinearOrder α] [Inhabited κ] [Inhabited α]
    (c : α → κ) (q : PQc κ α) (hq : IsHeap q.heap)
    (hshape : ∀ p ∈ q.heap, p.key = c p.elem)
    (a : α) (h : (q.poll).1 = some a) :
    a ∈ PQc.heldElems q ∧ ∀ y ∈ PQc.heldElems q, c a ≤ c y := by
  by_cases hne : q.heap = []
  · exfalso
    have hnone : heappop q.heap = none := by rw [hne]; exact heappop_nil
    rw [PQc.poll, hnone] at h
    simp at h
  · obtain ⟨p0, l2, hpop, hp0, _, _, _⟩ := heappop_spec q.heap hq hne
    rw [PQc.poll, hpop] at h
    have haa : a = p0.elem := by simpa using h.symm
    subst haa
    have hlen : 0 < q.heap.length := List.length_pos.2 hne
    have hp0mem : p0 ∈ q.heap := by
      rw [hp0]
      exact (mem_iff_getD default q.heap _).2 ⟨0, hlen, rfl⟩
    refine ⟨List.mem_map_of_mem Entry.elem hp0mem, ?_⟩
    intro y hy
    rcases List.mem_map.1 hy with ⟨p2, hp2, hpe⟩
    have hle : p0 ≤ p2 := hp0 ▸ isHeap_root_le_mem q.heap hq p2 hp2
    have hkey : p0.key ≤ p2.key := entry_le_key hle
    rw [hshape p0 hp0mem, hshape p2 hp2, hpe] at hkey
    exact hkey

/-- Draining a comparator heap of `(c e, e)` pairs yields the held elements
in non-decreasing comparator-key order. -/
theorem pqc_drain_key_sorted {κ α : Type} [LinearOrder κ] [LinearOrder α]
    [Inhabited κ] [Inhabited α]
    (c : α → κ) (q : PQc κ α) (hq : IsHeap q.heap)
    (hshape : ∀ p ∈ q.heap, p.key = c p.elem) :
    List.Pairwise (fun x y => c x ≤ c y) ((drain q.heap).map Entry.elem) ∧
    (((drain q.heap).map Entry.elem : List α) : Multiset α)
      = ((PQc.heldElems q : List α) : Multiset α) := by
  obtain ⟨hsorted, hmset⟩ := drain_spec q.heap hq
  have hmemdrain : ∀ p ∈ drain q.heap, p ∈ q.heap := by
    intro p hp
    have h2 : (p : Entry κ α) ∈ ((drain q.heap : List (Entry κ α)) : Multiset (Entry κ α)) := by
      exact_mod_cast hp
    rw [hmset] at h2
    exact_mod_cast h2
  constructor
  · rw [List.pairwise_map]
    apply List.Pairwise.imp_of_mem ?_ hsorted
    intro p1 p2 hp1 hp2 hle
    have hkey := entry_le_key hle
    rwa [hshape p1 (hmemdrain p1 hp1), hshape p2 (hmemdrain p2 hp2)] at hkey
  · show (((drain q.heap).map Entry.elem : List α) : Multiset α)
        = ((q.heap.map Entry.elem : List α) : Multiset α)
    rw [← Multiset.map_coe, ← Multiset.map_coe, hmset]

/-- C5: after any finite sequence of push (`add`/`offer`) and `poll`
operations on a `PriorityQueue`, with or without a comparator, a successful
`poll()` returns a minimum of the held elements under the active ordering
(natural order, or comparator-key order), and draining the heap by repeated
`poll()` yields exactly the held elements in non-decreasing order under
that ordering. -/
theorem claim_C5 {κ α : Type} [LinearOrder κ] [LinearOrder α] [Inhabited κ] [Inhabited α] :
    (∀ ops : List (PQOp α),
      (∀ a, ((PQn.runN ops).poll.1 = some a) →
        a ∈ (PQn.runN ops).heap ∧ ∀ y ∈ (PQn.runN ops).heap, a ≤ y) ∧
      List.Sorted (· ≤ ·) (drain (PQn.runN ops).heap) ∧
      ((drain (PQn.runN ops).heap : List α) : Multiset α)
        = ((PQn.runN ops).heap : Multiset α)) ∧
    (∀ (c : α → κ) (ops : List (PQOp α)),
      (∀ a, ((PQc.runC c ops).poll.1 = some a) →
        a ∈ PQc.heldElems (PQc.runC c ops) ∧
        ∀ y ∈ PQc.heldElems (PQc.runC c ops), c a ≤ c y) ∧
      List.Pairwise (fun x y => c x ≤ c y)
        ((drain (PQc.runC c ops).heap).map Entry.elem) ∧
      (((drain (PQc.runC c ops).heap).map Entry.elem : List α) : Multiset α)
        = ((PQc.heldElems (PQc.runC c ops) : List α) : Multiset α)) := by
  constructor
  · intro ops
    have hq := pqn_runN_isHeap ops
    obtain ⟨h1, h2⟩ := drain_spec (PQn.runN ops).heap hq
    exact ⟨fun a ha => pqn_poll_min _ hq a ha, h1, h2⟩
  · intro c ops
    obtain ⟨hq, hshape⟩ := pqc_runC_inv c ops
    obtain ⟨h1, h2⟩ := pqc_drain_key_sorted c _ hq hshape
    exact ⟨fun a ha => pqc_poll_min c _ hq hshape a ha, h1, h2⟩

/-- Witness for C5 at a concrete run: pushing 3, 1, 2 into an empty
no-comparator queue, `poll` returns 1, a held minimum. -/
theorem claim_C5_witness :
    (1 : Int) ∈ (PQn.runN [PQOp.push 3, PQOp.push 1, PQOp.push 2]).heap ∧
    ∀ y ∈ (PQn.runN [PQOp.push (3 : Int), PQOp.push 1, PQOp.push 2]).heap, (1 : Int) ≤ y :=
  ((claim_C5 (κ := Int) (α := Int)).1 [PQOp.push 3, PQOp.push 1, PQOp.push 2]).1 1 (by
    simp [PQn.runN, PQn.add, PQn.poll, heappush, heappop, siftdownLoop_step,
      siftdownLoop_stop1, siftdownLoop_stop2, siftup, siftupLoop_step, siftupLoop_stop,
      chooseChild])

/-- C1 (amended): membership as tested by `remove`/`contains` is Python
object equality against the backing array.  For a queue without a
comparator, `remove(o)` returns True iff `contains(o)`; a successful
removal re-establishes the heap property, and when `o` occurred at most
once it is no longer found by `contains`.  For a comparator queue the
backing array holds `(key, element)` tuples, so a raw element `o` is never
equal to any stored entry: `remove(o)` returns False (leaving the queue
unchanged) and `contains(o)` returns False even while `o` is held. -/
theorem claim_C1 {κ α : Type} [LinearOrder κ] [LinearOrder α] [Inhabited κ] [Inhabited α] :
    (∀ (q : PQn α) (o : α),
      ((PQn.remove q o).2 = true ↔ PQn.contains q o = true) ∧
      ((PQn.remove q o).2 = true → IsHeap (PQn.remove q o).1.heap) ∧
      (q.heap.count o ≤ 1 → PQn.contains (PQn.remove q o).1 o = false)) ∧
    (∀ (q : PQc κ α) (o : α),
      (PQc.remove q o).2 = false ∧ (PQc.remove q o).1 = q ∧ PQc.contains q o = false) := by
  constructor
  · intro q o
    by_cases ho : o ∈ q.heap
    · refine ⟨?_, ?_, ?_⟩
      · simp [PQn.remove, PQn.contains, ho]
      · intro _
        simp only [PQn.remove, if_pos ho]
        exact (heapify_spec (q.heap.erase o)).1
      · intro hcount
        simp only [PQn.remove, if_pos ho, PQn.contains]
        have hcz : (q.heap.erase o).count o = 0 := by
          rw [List.count_erase_self]
          have : 1 ≤ q.heap.count o := List.one_le_count_iff.2 ho
          omega
        have : o ∉ q.heap.erase o := by
          rw [← List.count_eq_zero]
          exact hcz
        simp [mem_heapify, this]
    · refine ⟨?_, ?_, ?_⟩
      · simp [PQn.remove, PQn.contains, ho]
      · intro hfalse
        simp [PQn.remove, ho] at hfalse
      · intro _
        simp [PQn.remove, PQn.contains, ho]
  · intro q o
    have hany : q.heap.any (pyEqProbeEntry o) = false := by
      rw [List.any_eq_false]
      intro p _
      rw [pyEqProbeEntry_false]
      simp
    refine ⟨?_, ?_, ?_⟩
    · simp [PQc.remove, hany]
    · simp [PQc.remove, hany]
    · simp [PQc.contains, hany]

/-- Witness for C1 at a concrete no-comparator queue holding `5` once:
`contains` is true, `remove` succeeds, the result is a heap, and the
element is gone afterwards. -/
theorem claim_C1_witness :
    PQn.contains (⟨[(5 : Int)]⟩ : PQn Int) 5 = true ∧
    (PQn.remove (⟨[(5 : Int)]⟩ : PQn Int) 5).2 = true ∧
    IsHeap (PQn.remove (⟨[(5 : Int)]⟩ : PQn Int) 5).1.heap ∧
    PQn.contains (PQn.remove (⟨[(5 : Int)]⟩ : PQn Int) 5).1 5 = false := by
  have h := (claim_C1 (κ := Int) (α := Int)).1 (⟨[(5 : Int)]⟩ : PQn Int) 5
  exact ⟨by decide, h.1.mpr (by decide), h.2.1 (h.1.mpr (by decide)), h.2.2 (by decide)⟩

/-- Counterexample to C1 as stated: in a comparator queue (comparator the
identity) holding the single element 5 — `size` is 1, `peek` and `poll`
return 5, so 5 is currently held — `remove(5)` nevertheless returns False
and `contains(5)` returns False. -/
theorem claim_C1_cex :
    PQc.size (PQc.add (fun e => e) (⟨[]⟩ : PQc Int Int) 5).1 = 1 ∧
    PQc.peek (PQc.add (fun e => e) (⟨[]⟩ : PQc Int Int) 5).1 = some 5 ∧
    (PQc.poll (PQc.add (fun e => e) (⟨[]⟩ : PQc Int Int) 5).1).1 = some 5 ∧
    (PQc.remove (PQc.add (fun e => e) (⟨[]⟩ : PQc Int Int) 5).1 5).2 = false ∧
    PQc.contains (PQc.add (fun e => e) (⟨[]⟩ : PQc Int Int) 5).1 5 = false := by
  refine ⟨?_, ?_, ?_, ?_, ?_⟩ <;>
    simp [PQc.size, PQc.add, PQc.peek, PQc.poll, PQc.remove, PQc.contains, heappush, heappop,
      siftdownLoop_step, siftdownLoop_stop1, siftdownLoop_stop2, siftup, siftupLoop_step,
      siftupLoop_stop, chooseChild, pyEqProbeEntry_false]

/-! ## Vector

Shallow embedding of src/jcollections/vector.py.  `data` is `elementData`
(the backing Python list, `None` slots modelled by `none`), `count` is
`elementCount`, `inc` is `capacityIncrement`.  Indices arriving from
callers are `Int` (Python ints, possibly negative); stored elements are
`some x`.  Operations that can raise return `Except (JErr × VState α) …`
carrying the state at the moment of the raise, exactly as a propagating
Python exception leaves the object. -/

structure VState (α : Type) where
  data : List (Option α)
  count : Nat
  inc : Int
deriving DecidableEq, Repr

/-- The Vector representation invariant: `0 ≤ elementCount ≤ len(elementData)`. -/
def VInv {α : Type} (st : VState α) : Prop :=
  st.count ≤ st.data.length

/-- Embedding of `Vector()`: default capacity 10, increment 0. -/
def vectorNew (α : Type) : VState α :=
  ⟨List.replicate 10 none, 0, 0⟩

/-- Embedding of `Vector(initialCapacity)`. -/
def vectorWithCapacity {α : Type} (n : Nat) : VState α :=
  ⟨List.replicate n none, 0, 0⟩

/-- Embedding of `Vector(initialCapacity, capacityIncrement)`. -/
def vectorWithCapacityInc {α : Type} (n : Nat) (k : Int) : VState α :=
  ⟨List.replicate n none, 0, k⟩

/-- Embedding of `Vector(collection)`: seeded, capacity = seed size. -/
def vectorFromCollection {α : Type} (l : List (Option α)) : VState α :=
  ⟨l, l.length, 0⟩

/-- Embedding of `Vector.ensureCapacity(min_capacity)`: grow only when
`min_capacity > len(elementData)`, to `len + inc` (when `inc > 0`) or
`len * 2`, then at least to `min_capacity`; the copy loop moves slots
`[0, elementCount)` into the fresh None-filled buffer. -/
def vecEnsureCapacity {α : Type} (m : Int) (st : VState α) : VState α :=
  if (st.data.length : Int) < m then
    let grown : Int :=
      if st.inc > 0 then (st.data.length : Int) + st.inc else (st.data.length : Int) * 2
    let newcap : Int := if grown < m then m else grown
    { st with data := st.data.take st.count ++ List.replicate (newcap.toNat - st.count) none }
  else st

/-- Embedding of `Vector.addElement(obj)`.  The final raw write
`self.elementData[self.elementCount] = obj` raises IndexError when the slot
is out of range (this happens on a zero-capacity, zero-increment vector,
whose growth request `ensureCapacity(0)` is a no-op). -/
def vecAddElement {α : Type} (e : α) (st : VState α) :
    Except (JErr × VState α) (VState α) :=
  let st1 :=
    if st.count = st.data.length then
      vecEnsureCapacity ((st.data.length : Int) +
        (if st.inc > 0 then st.inc else (st.data.length : Int))) st
    else st
  if st1.count < st1.data.length then
    .ok { st1 with data := st1.data.set st1.count (some e), count := st1.count + 1 }
  else .error (.indexOutOfRange, st1)

/-- Embedding of `Vector.add(e)` (single-argument form; returns True). -/
def vecAdd1 {α : Type} (e : α) (st : VState α) : VState α × Bool :=
  let st1 := vecEnsureCapacity ((st.count : Int) + 1) st
  ({ st1 with data := st1.data.set st1.count (some e), count := st1.count + 1 }, true)

/-- The backward shift loop of `Vector.add(index, element)`:
`for i in range(count, index, -1): data[i] = data[i-1]`. -/
def shiftUp {α : Type} (d : List (Option α)) (stop j : Nat) : List (Option α) :=
  if stop < j then shiftUp (d.set j (d.getD (j - 1) none)) stop (j - 1) else d
termination_by j

/-- Embedding of `Vector.add(index, element)` (two-argument insert form). -/
def vecAdd2 {α : Type} (i : Int) (e : α) (st : VState α) :
    Except (JErr × VState α) (VState α) :=
  if (st.count : Int) < i ∨ i < 0 then .error (.indexOutOfRange, st)
  else
    let st1 := vecEnsureCapacity ((st.count : Int) + 1) st
    let d := shiftUp st1.data i.toNat st1.count
    .ok { st1 with data := d.set i.toNat (some e), count := st1.count + 1 }

/-- The forward shift loop of `Vector.__removeAt__`:
`for i in range(index, count-1): data[i] = data[i+1]`. -/
def shiftDown {α : Type} (d : List (Option α)) (i stop : Nat) : List (Option α) :=
  if i < stop then shiftDown (d.set i (d.getD (i + 1) none)) (i + 1) stop else d
termination_by stop - i

/-- Embedding of `Vector.__removeAt__(index)`: bounds-checked removal with left shift,
clearing the vacated trailing slot. -/
def vecRemoveAt {α : Type} (i : Int) (st : VState α) :
    Except (JErr × VState α) (Option α × VState α) :=
  if i < 0 ∨ (st.count : Int) ≤ i then .error (.indexOutOfRange, st)
  else
    let removed := st.data.getD i.toNat none
    let d := shiftDown st.data i.toNat (st.count - 1)
    .ok (removed, { st with data := d.set (st.count - 1) none, count := st.count - 1 })

/-- Embedding of `Vector.get(index)` / `elementAt(index)`. -/
def vecGet {α : Type} (i : Int) (st : VState α) : Except JErr (Option α) :=
  if i < 0 ∨ (st.count : Int) ≤ i then .error .indexOutOfRange
  else .ok (st.data.getD i.toNat none)

/-- Embedding of `Vector.set(index, element)`: bounds-checked write returning the old value. -/
def vecSet {α : Type} (i : Int) (e : α) (st : VState α) :
    Except (JErr × VState α) (Option α × VState α) :=
  if i < 0 ∨ (st.count : Int) ≤ i then .error (.indexOutOfRange, st)
  else .ok (st.data.getD i.toNat none, { st with data := st.data.set i.toNat (some e) })

/-- The clearing loop of `Vector.setSize`:
`for i in range(newSize, count): data[i] = None`. -/
def clearRange {α : Type} (d : List (Option α)) (i stop : Nat) : List (Option α) :=
  if i < stop then clearRange (d.set i none) (i + 1) stop else d
termination_by stop - i

/-- Embedding of `Vector.setSize(newSize)`. -/
def vecSetSize {α : Type} (n : Int) (st : VState α) :
    Except (JErr × VState α) (VState α) :=
  if n < 0 then .error (.valueError, st)
  else if (st.data.length : Int) < n then
    .ok { vecEnsureCapacity n st with count := n.toNat }
  else if n < (st.count : Int) then
    .ok { st with data := clearRange st.data n.toNat st.count, count := n.toNat }
  else
    .ok { st with count := n.toNat }

/-- Embedding of `Vector.setElementAt(value, index)`: negative index raises; an index at
or past the element count grows the buffer (if needed) and extends the
logical size to `index + 1`. -/
def vecSetElementAt {α : Type} (x : α) (i : Int) (st : VState α) :
    Except (JErr × VState α) (VState α) :=
  if i < 0 then .error (.indexOutOfRange, st)
  else
    let st1 := if (st.data.length : Int) ≤ i then vecEnsureCapacity (i + 1) st else st
    let st2 := if (st1.count : Int) ≤ i then { st1 with count := i.toNat + 1 } else st1
    .ok { st2 with data := st2.data.set i.toNat (some x) }

/-- Embedding of `Vector.trimToSize()`. -/
def vecTrimToSize {α : Type} (st : VState α) : VState α :=
  if st.count < st.data.length then { st with data := st.data.take st.count } else st

/-- Embedding of `Vector.clear()`. -/
def vecClear {α : Type} (st : VState α) : VState α :=
  ⟨List.replicate st.data.length none, 0, st.inc⟩

/-- The scan loop of `Vector.indexOf(o)`. -/
def indexOfAux {α : Type} [DecidableEq α] (o : Option α) (st : VState α) (i : Nat) : Int :=
  if i < st.count then
    if st.data.getD i none = o then (i : Int) else indexOfAux o st (i + 1)
  else -1
termination_by st.count - i

/-- Embedding of `Vector.indexOf(o)`: first index holding `o`, else `-1`. -/
def vecIndexOf {α : Type} [DecidableEq α] (o : Option α) (st : VState α) : Int :=
  indexOfAux o st 0

/-- Embedding of `Vector.removeElement(obj)`: locate by `indexOf`, remove by
`__removeAt__`; an `IndexError` is caught and reported as False. -/
def vecRemoveElement {α : Type} [DecidableEq α] (o : Option α) (st : VState α) :
    Bool × VState α :=
  let idx := vecIndexOf o st
  if idx ≠ -1 then
    match vecRemoveAt idx st with
    | .ok (_, st') => (true, st')
    | .error (_, st') => (false, st')
  else (false, st)

/-- The loop of `Vector.retainAll(c)`:
`for i in range(self.elementCount): if self.elementData[i] not in c:
self.__removeAt__(i); removed = True` — the range bound `n` is the element
count at entry, while `__removeAt__` shrinks the live count as the loop
runs; an `IndexError` raised by `__removeAt__` propagates. -/
def retainLoop {α : Type} [DecidableEq α] (c : List (Option α)) (n : Nat) (i : Nat)
    (removed : Bool) (st : VState α) : Except (JErr × VState α) (Bool × VState α) :=
  if i < n then
    if st.data.getD i none ∈ c then retainLoop c n (i + 1) removed st
    else
      match vecRemoveAt (i : Int) st with
      | .error err => .error err
      | .ok (_, st') => retainLoop c n (i + 1) true st'
  else .ok (removed, st)
termination_by n - i

/-- Embedding of `Vector.retainAll(c)`. -/
def vecRetainAll {α : Type} [DecidableEq α] (c : List (Option α)) (st : VState α) :
    Except (JErr × VState α) (Bool × VState α) :=
  retainLoop c st.count 0 false st

/-- The loop of `Vector.removeIf(predicate)`: indices walked downwards from
`count - 1` to `0`; the argument `k` is one past the next index visited. -/
def removeIfLoop {α : Type} (p : Option α → Bool) :
    Nat → Bool → VState α → Except (JErr × VState α) (Bool × VState α)
  | 0, removed, st => .ok (removed, st)
  | k + 1, removed, st =>
    if p (st.data.getD k none) then
      match vecRemoveAt (k : Int) st with
      | .error err => .error err
      | .ok (_, st') => removeIfLoop p k true st'
    else removeIfLoop p k removed st

/-- Embedding of `Vector.removeIf(predicate)`. -/
def vecRemoveIf {α : Type} (p : Option α → Bool) (st : VState α) :
    Except (JErr × VState α) (Bool × VState α) :=
  removeIfLoop p st.count false st

/-- The loop of `Vector.replaceAll(operator)`. -/
def replaceLoop {α : Type} (f : Option α → Option α) (n : Nat) (i : Nat)
    (d : List (Option α)) : List (Option α) :=
  if i < n then replaceLoop f n (i + 1) (d.set i (f (d.getD i none))) else d
termination_by n - i

/-- Embedding of `Vector.replaceAll(operator)`. -/
def vecReplaceAll {α : Type} (f : Option α → Option α) (st : VState α) : VState α :=
  { st with data := replaceLoop f st.count 0 st.data }

/-- Embedding of `Vector.addAll(collection)` (append form): False on an empty argument,
else one `ensureCapacity` and a loop of tail writes. -/
def vecAddAll {α : Type} (col : List (Option α)) (st : VState α) : Bool × VState α :=
  if col.length = 0 then (false, st)
  else
    let st1 := vecEnsureCapacity ((st.count : Int) + col.length) st
    (true, col.foldl (fun s e => { s with data := s.data.set s.count e, count := s.count + 1 }) st1)

/-- Embedding of `Vector.toArray()`: `elementData[:elementCount]`. -/
def vecToArray {α : Type} (st : VState α) : List (Option α) :=
  st.data.take st.count

/-- Embedding of `Vector.size()`. -/
def vecSize {α : Type} (st : VState α) : Nat :=
  st.count

/-- Embedding of `Vector.isEmpty()`. -/
def vecIsEmpty {α : Type} (st : VState α) : Bool :=
  st.count == 0

/-! ## Stack (src/jcollections/stack.py), a LIFO view over Vector -/

/-- Embedding of `Stack.peek()`: raises on an empty stack, else the top slot. -/
def stackPeek {α : Type} (st : VState α) : Except JErr (Option α) :=
  if st.count = 0 then .error .emptyCollection
  else .ok (st.data.getD (st.count - 1) none)

/-- Embedding of `Stack.pop()`: raises on an empty stack, else reads the top element and
removes it through `removeElementAt`. -/
def stackPop {α : Type} (st : VState α) :
    Except (JErr × VState α) (Option α × VState α) :=
  if st.count = 0 then .error (.emptyCollection, st)
  else
    let e := st.data.getD (st.count - 1) none
    match vecRemoveAt ((st.count : Int) - 1) st with
    | .error err => .error err
    | .ok (_, st') => .ok (e, st')

/-! ## ArrayDeque (src/jcollections/arraydeque.py)

The deque is the plain Python list `_deque`; an integer constructor
argument fills it with `initial` None placeholders. -/

/-- Embedding of `ArrayDeque(n)` for an integer argument: `self._deque = [None] * n`. -/
def arrayDequeWithCapacity {ι : Type} (n : Nat) : List (Option ι) :=
  List.replicate n none

/-- Embedding of `ArrayDeque.size()`. -/
def dequeSize {ι : Type} (d : List (Option ι)) : Nat :=
  d.length

/-- Embedding of `ArrayDeque.isEmpty()`. -/
def dequeIsEmpty {ι : Type} (d : List (Option ι)) : Bool :=
  d.length == 0

/-- Embedding of `ArrayDeque.getFirst()`: raises on an empty deque. -/
def dequeGetFirst {ι : Type} (d : List (Option ι)) : Except JErr (Option ι) :=
  match d with
  | [] => .error .emptyCollection
  | x :: _ => .ok x

/-- Embedding of `ArrayDeque.getLast()`: raises on an empty deque. -/
def dequeGetLast {ι : Type} (d : List (Option ι)) : Except JErr (Option ι) :=
  match d.getLast? with
  | none => .error .emptyCollection
  | some x => .ok x

/-- Embedding of `ArrayDeque.element()`: delegates to `getFirst`. -/
def dequeElement {ι : Type} (d : List (Option ι)) : Except JErr (Option ι) :=
  dequeGetFirst d

/-- Embedding of `ArrayDeque.peekFirst()`: `None` on an empty deque. -/
def dequePeekFirst {ι : Type} (d : List (Option ι)) : Option ι :=
  match d with
  | [] => none
  | x :: _ => x

/-- Embedding of `ArrayDeque.peekLast()`. -/
def dequePeekLast {ι : Type} (d : List (Option ι)) : Option ι :=
  match d.getLast? with
  | none => none
  | some x => x

/-- Embedding of `ArrayDeque.peek()`: delegates to `peekFirst`. -/
def dequePeek {ι : Type} (d : List (Option ι)) : Option ι :=
  dequePeekFirst d

/-- Embedding of `ArrayDeque.pollFirst()`: `None` (deque untouched) on an empty deque. -/
def dequePollFirst {ι : Type} (d : List (Option ι)) : Option ι × List (Option ι) :=
  match d with
  | [] => (none, d)
  | x :: t => (x, t)

/-- Embedding of `ArrayDeque.pollLast()`. -/
def dequePollLast {ι : Type} (d : List (Option ι)) : Option ι × List (Option ι) :=
  match d.getLast? with
  | none => (none, d)
  | some x => (x, d.dropLast)

/-- Embedding of `ArrayDeque.poll()`: delegates to `pollFirst`. -/
def dequePoll {ι : Type} (d : List (Option ι)) : Option ι × List (Option ι) :=
  dequePollFirst d

/-! ## Vector loop characterizations -/

section VectorLemmas

variable {α : Type}

theorem shiftUp_step (d : List (Option α)) {stop j : Nat} (h : stop < j) :
    shiftUp d stop j = shiftUp (d.set j (d.getD (j - 1) none)) stop (j - 1) := by
  rw [shiftUp, if_pos h]

theorem shiftUp_stop (d : List (Option α)) {stop j : Nat} (h : ¬ stop < j) :
    shiftUp d stop j = d := by
  rw [shiftUp, if_neg h]

theorem shiftDown_step (d : List (Option α)) {i stop : Nat} (h : i < stop) :
    shiftDown d i stop = shiftDown (d.set i (d.getD (i + 1) none)) (i + 1) stop := by
  rw [shiftDown, if_pos h]

theorem shiftDown_stop (d : List (Option α)) {i stop : Nat} (h : ¬ i < stop) :
    shiftDown d i stop = d := by
  rw [shiftDown, if_neg h]

theorem clearRange_step (d : List (Option α)) {i stop : Nat} (h : i < stop) :
    clearRange d i stop = clearRange (d.set i none) (i + 1) stop := by
  rw [clearRange, if_pos h]

theorem clearRange_stop (d : List (Option α)) {i stop : Nat} (h : ¬ i < stop) :
    clearRange d i stop = d := by
  rw [clearRange, if_neg h]

theorem retainLoop_skip [DecidableEq α] (c : List (Option α)) {n i : Nat}
    (removed : Bool) (st : VState α) (h1 : i < n) (h2 : st.data.getD i none ∈ c) :
    retainLoop c n i removed st = retainLoop c n (i + 1) removed st := by
  rw [retainLoop, if_pos h1, if_pos h2]

theorem retainLoop_hit [DecidableEq α] (c : List (Option α)) {n i : Nat}
    (removed : Bool) (st : VState α) (h1 : i < n) (h2 : ¬ st.data.getD i none ∈ c) :
    retainLoop c n i removed st
      = match vecRemoveAt (i : Int) st with
        | .error err => .error err
        | .ok (_, st') => retainLoop c n (i + 1) true st' := by
  rw [retainLoop, if_pos h1, if_neg h2]

theorem retainLoop_done [DecidableEq α] (c : List (Option α)) {n i : Nat}
    (removed : Bool) (st : VState α) (h1 : ¬ i < n) :
    retainLoop c n i removed st = .ok (removed, st) := by
  rw [retainLoop, if_neg h1]

theorem indexOfAux_step [DecidableEq α] (o : Option α) (st : VState α) {i : Nat}
    (h1 : i < st.count) :
    indexOfAux o st i
      = if st.data.getD i none = o then (i : Int) else indexOfAux o st (i + 1) := by
  rw [indexOfAux, if_pos h1]

theorem indexOfAux_stop [DecidableEq α] (o : Option α) (st : VState α) {i : Nat}
    (h1 : ¬ i < st.count) :
    indexOfAux o st i = -1 := by
  rw [indexOfAux, if_neg h1]

theorem replaceLoop_step (f : Option α → Option α) {n i : Nat} (d : List (Option α))
    (h : i < n) :
    replaceLoop f n i d = replaceLoop f n (i + 1) (d.set i (f (d.getD i none))) := by
  rw [replaceLoop, if_pos h]

theorem replaceLoop_stop (f : Option α → Option α) {n i : Nat} (d : List (Option α))
    (h : ¬ i < n) :
    replaceLoop f n i d = d := by
  rw [replaceLoop, if_neg h]

theorem shiftUp_length (d : List (Option α)) (stop j : Nat) :
    (shiftUp d stop j).length = d.length := by
  induction d, stop, j using shiftUp.induct with
  | case1 d stop j h ih =>
    rw [shiftUp_step d h]
    simpa using ih
  | case2 d stop j h =>
    rw [shiftUp_stop d h]

/-- Closed form of the right-shift loop: slots in `(stop, j]` receive their
left neighbour, everything else is untouched. -/
theorem shiftUp_getD (d : List (Option α)) (stop j : Nat) :
    j < d.length →
    ∀ t, (shiftUp d stop j).getD t none
      = if stop < t ∧ t ≤ j then d.getD (t - 1) none else d.getD t none := by
  induction d, stop, j using shiftUp.induct with
  | case1 d stop j h ih =>
    intro hj t
    rw [shiftUp_step d h]
    have hlen : (d.set j (d.getD (j - 1) none)).length = d.length := by simp
    have iht := ih (by omega) t
    rw [iht]
    by_cases h1 : stop < t ∧ t ≤ j - 1
    · rw [if_pos h1, if_pos (by omega : stop < t ∧ t ≤ j)]
      exact getD_set_ne none d j (t - 1) _ (by omega)
    · rw [if_neg h1]
      by_cases h2 : t = j
      · subst h2
        rw [if_pos (by omega : stop < t ∧ t ≤ t)]
        exact getD_set_eq none d t _ hj
      · rw [if_neg (by omega : ¬ (stop < t ∧ t ≤ j))]
        exact getD_set_ne none d j t _ (by omega)
  | case2 d stop j h =>
    intro hj t
    rw [shiftUp_stop d h, if_neg (by omega : ¬ (stop < t ∧ t ≤ j))]

theorem shiftDown_length (d : List (Option α)) (i stop : Nat) :
    (shiftDown d i stop).length = d.length := by
  induction d, i, stop using shiftDown.induct with
  | case1 d i stop h ih =>
    rw [shiftDown_step d h]
    simpa using ih
  | case2 d i stop h =>
    rw [shiftDown_stop d h]

/-- Closed form of the left-shift loop: slots in `[i, stop)` receive their
right neighbour, everything else is untouched. -/
theorem shiftDown_getD (d : List (Option α)) (i stop : Nat) :
    stop ≤ d.length →
    ∀ t, (shiftDown d i stop).getD t none
      = if i ≤ t ∧ t < stop then d.getD (t + 1) none else d.getD t none := by
  induction d, i, stop using shiftDown.induct with
  | case1 d i stop h ih =>
    intro hstop t
    rw [shiftDown_step d h]
    have hlen : (d.set i (d.getD (i + 1) none)).length = d.length := by simp
    have iht := ih (by omega) t
    rw [iht]
    by_cases h1 : i + 1 ≤ t ∧ t < stop
    · rw [if_pos h1, if_pos (by omega : i ≤ t ∧ t < stop)]
      exact getD_set_ne none d i (t + 1) _ (by omega)
    · rw [if_neg h1]
      by_cases h2 : t = i
      · subst h2
        rw [if_pos (by omega : t ≤ t ∧ t < stop)]
        exact getD_set_eq none d t _ (by omega)
      · rw [if_neg (by omega : ¬ (i ≤ t ∧ t < stop))]
        exact getD_set_ne none d i t _ (by omega)
  | case2 d i stop h =>
    intro hstop t
    rw [shiftDown_stop d h, if_neg (by omega : ¬ (i ≤ t ∧ t < stop))]

theorem clearRange_length (d : List (Option α)) (i stop : Nat) :
    (clearRange d i stop).length = d.length := by
  induction d, i, stop using clearRange.induct with
  | case1 d i stop h ih =>
    rw [clearRange_step d h]
    simpa using ih
  | case2 d i stop h =>
    rw [clearRange_stop d h]

theorem replaceLoop_length (f : Option α → Option α) (n i : Nat) (d : List (Option α)) :
    (replaceLoop f n i d).length = d.length := by
  induction i, d using replaceLoop.induct f n with
  | case1 i d h ih =>
    rw [replaceLoop_step f d h]
    simpa using ih
  | case2 i d h =>
    rw [replaceLoop_stop f d h]

/-- Full specification of `ensureCapacity` on invariant-satisfying states:
no-op when the capacity suffices, otherwise the capacity becomes
`max(len + inc, m)` (increment positive) or `max(len * 2, m)` (increment
zero or negative), the logical count and increment are unchanged, and the
stored prefix `[0, count)` keeps its values. -/
theorem vecEnsureCapacity_spec (m : Int) (st : VState α) (hinv : VInv st) :
    (vecEnsureCapacity m st).count = st.count ∧
    (vecEnsureCapacity m st).inc = st.inc ∧
    st.data.length ≤ (vecEnsureCapacity m st).data.length ∧
    (m ≤ (st.data.length : Int) → vecEnsureCapacity m st = st) ∧
    ((st.data.length : Int) < m →
      ((vecEnsureCapacity m st).data.length : Int)
        = max (if st.inc > 0 then (st.data.length : Int) + st.inc
               else (st.data.length : Int) * 2) m) ∧
    (∀ j, j < st.count → (vecEnsureCapacity m st).data.getD j none = st.data.getD j none) ∧
    ((st.data.length : Int) < m → m ≤ ((vecEnsureCapacity m st).data.length : Int)) := by
  by_cases hm : (st.data.length : Int) < m
  · have hcall : vecEnsureCapacity m st
        = { st with data := st.data.take st.count ++
            List.replicate ((if (if st.inc > 0 then (st.data.length : Int) + st.inc
                else (st.data.length : Int) * 2) < m then m
              else (if st.inc > 0 then (st.data.length : Int) + st.inc
                else (st.data.length : Int) * 2)).toNat - st.count) none } := by
      rw [vecEnsureCapacity, if_pos hm]
    set grown : Int := if st.inc > 0 then (st.data.length : Int) + st.inc
        else (st.data.length : Int) * 2 with hgrown
    set newcap : Int := if grown < m then m else grown with hnewcap
    have hmax : newcap = max grown m := by
      rw [hnewcap]
      rcases le_or_lt m grown with h | h
      · rw [if_neg (by omega), max_eq_left h]
      · rw [if_pos h, max_eq_right (le_of_lt h)]
    have hm0 : 0 < m := by
      have : (0 : Int) ≤ (st.data.length : Int) := Int.natCast_nonneg _
      omega
    have hnc_ge_m : m ≤ newcap := by rw [hmax]; exact le_max_right _ _
    have hcount_le : (st.count : Int) ≤ newcap := by
      have h1 : (st.count : Int) ≤ (st.data.length : Int) := by exact_mod_cast hinv
      omega
    have hlen : (vecEnsureCapacity m st).data.length = newcap.toNat := by
      rw [hcall]
      have htake : (st.data.take st.count).length = st.count := by
        simp [List.length_take]
        exact hinv
      simp only [List.length_append, htake, List.length_replicate]
      omega
    have hlenInt : ((vecEnsureCapacity m st).data.length : Int) = newcap := by
      rw [hlen]
      omega
    refine ⟨by rw [hcall], by rw [hcall], ?_, ?_, ?_, ?_, ?_⟩
    · have : (st.data.length : Int) ≤ newcap := by omega
      omega
    · intro h; omega
    · intro _
      rw [hlenInt, hmax]
    · intro j hj
      rw [hcall]
      show (st.data.take st.count ++ _).getD j none = st.data.getD j none
      have hcl : st.count ≤ st.data.length := hinv
      have hjlt : j < (st.data.take st.count).length := by
        rw [List.length_take]
        omega
      rw [getD_append_left none _ _ j hjlt]
      exact getD_take none st.data st.count j hj
    · intro _
      omega
  · have hcall : vecEnsureCapacity m st = st := by
      rw [vecEnsureCapacity, if_neg hm]
    rw [hcall]
    exact ⟨rfl, rfl, le_refl _, fun _ => rfl, fun h => absurd h hm, fun _ _ => rfl,
      fun h => absurd h hm⟩

/-- Lemma: `ensureCapacity` preserves the representation invariant. -/
theorem vecEnsureCapacity_inv (m : Int) (st : VState α) (hinv : VInv st) :
    VInv (vecEnsureCapacity m st) := by
  obtain ⟨h1, _, h3, _⟩ := vecEnsureCapacity_spec m st hinv
  have hcl : st.count ≤ st.data.length := hinv
  show (vecEnsureCapacity m st).count ≤ _
  omega

/-- After `ensureCapacity(m)` (from an invariant state) the capacity is at
least `m` whenever `m` was a genuine request. -/
theorem vecEnsureCapacity_ge (m : Int) (st : VState α) (hinv : VInv st) :
    m ≤ ((vecEnsureCapacity m st).data.length : Int) ∨
      (m ≤ (st.data.length : Int) ∧ vecEnsureCapacity m st = st) := by
  obtain ⟨_, _, _, h4, _, _, h7⟩ := vecEnsureCapacity_spec m st hinv
  by_cases hm : (st.data.length : Int) < m
  · exact Or.inl (h7 hm)
  · exact Or.inr ⟨by omega, h4 (by omega)⟩

/-- Specification of `add(e)` (append): the count grows by one, the old
prefix is unchanged, the new slot holds `e`. -/
theorem vecAdd1_spec (e : α) (st : VState α) (hinv : VInv st) :
    (vecAdd1 e st).1.count = st.count + 1 ∧
    VInv (vecAdd1 e st).1 ∧
    (∀ j, j < st.count → (vecAdd1 e st).1.data.getD j none = st.data.getD j none) ∧
    (vecAdd1 e st).1.data.getD st.count none = some e ∧
    (vecAdd1 e st).1.inc = st.inc ∧
    st.data.length ≤ (vecAdd1 e st).1.data.length := by
  obtain ⟨h1, h2, h3, _, _, h6, h7⟩ :=
    vecEnsureCapacity_spec ((st.count : Int) + 1) st hinv
  set st1 := vecEnsureCapacity ((st.count : Int) + 1) st with hst1
  have hroom : st.count < st1.data.length := by
    by_cases hm : (st.data.length : Int) < (st.count : Int) + 1
    · have := h7 hm
      omega
    · omega
  have hcall : vecAdd1 e st
      = ({ st1 with data := st1.data.set st1.count (some e), count := st1.count + 1 }, true) :=
    rfl
  rw [hcall]
  refine ⟨by simp [h1], ?_, ?_, ?_, by simp [h2], ?_⟩
  · show st1.count + 1 ≤ (st1.data.set st1.count (some e)).length
    simp only [List.length_set]
    omega
  · intro j hj
    show (st1.data.set st1.count (some e)).getD j none = st.data.getD j none
    rw [getD_set_ne none st1.data st1.count j _ (by omega), h6 j hj]
  · show (st1.data.set st1.count (some e)).getD st.count none = some e
    rw [← h1]
    exact getD_set_eq none st1.data st1.count _ (by omega)
  · show st.data.length ≤ (st1.data.set st1.count (some e)).length
    simp only [List.length_set]
    exact h3

/-- Lemma: `__removeAt__` raises only with the state unchanged. -/
theorem vecRemoveAt_error_state (i : Int) (st : VState α) (e : JErr) (st' : VState α)
    (h : vecRemoveAt i st = .error (e, st')) : st' = st ∧ e = .indexOutOfRange := by
  by_cases hg : i < 0 ∨ (st.count : Int) ≤ i
  · rw [vecRemoveAt, if_pos hg] at h
    have h2 := Except.error.inj h
    exact ⟨(congrArg Prod.snd h2).symm, (congrArg Prod.fst h2).symm⟩
  · rw [vecRemoveAt, if_neg hg] at h
    exact absurd h (by simp)

/-- A successful `__removeAt__` keeps the buffer length and decrements the
count, so it preserves the invariant. -/
theorem vecRemoveAt_ok (i : Int) (st : VState α) (r : Option α) (st' : VState α)
    (h : vecRemoveAt i st = .ok (r, st')) :
    st'.data.length = st.data.length ∧ st'.count = st.count - 1 ∧ st'.inc = st.inc ∧
    ¬ (i < 0 ∨ (st.count : Int) ≤ i) := by
  by_cases hg : i < 0 ∨ (st.count : Int) ≤ i
  · rw [vecRemoveAt, if_pos hg] at h
    exact absurd h (by simp)
  · rw [vecRemoveAt, if_neg hg] at h
    have h2 := Except.ok.inj h
    have hst' : st' = { st with
        data := (shiftDown st.data i.toNat (st.count - 1)).set (st.count - 1) none,
        count := st.count - 1 } := (congrArg Prod.snd h2).symm
    rw [hst']
    refine ⟨?_, rfl, rfl, hg⟩
    simp [shiftDown_length]

theorem vecRemoveAt_inv (i : Int) (st : VState α) (r : Option α) (st' : VState α)
    (h : vecRemoveAt i st = .ok (r, st')) (hinv : VInv st) : VInv st' := by
  obtain ⟨h1, h2, _, _⟩ := vecRemoveAt_ok i st r st' h
  have hcl : st.count ≤ st.data.length := hinv
  show st'.count ≤ st'.data.length
  omega

/-- Invariant preservation for the `retainAll` loop: whether it completes or
raises, every state it can leave behind satisfies the invariant. -/
theorem retainLoop_inv [DecidableEq α] (c : List (Option α)) (n : Nat)
    (i : Nat) (removed : Bool) (st : VState α) : VInv st →
    (∀ b st', retainLoop c n i removed st = .ok (b, st') → VInv st') ∧
    (∀ e st', retainLoop c n i removed st = .error (e, st') → VInv st') := by
  induction i, removed, st using retainLoop.induct c n with
  | case1 i removed st h1 h2 ih =>
    intro hinv
    rw [retainLoop_skip c removed st h1 h2]
    exact ih hinv
  | case2 i removed st h1 h2 err herr =>
    intro hinv
    rw [retainLoop_hit c removed st h1 h2, herr]
    obtain ⟨e0, st0⟩ := err
    obtain ⟨hst0, _⟩ := vecRemoveAt_error_state _ _ _ _ herr
    constructor
    · intro b st' hcontra
      simp at hcontra
    · intro e st' herr2
      have h2 := Except.error.inj herr2
      have : st' = st0 := (congrArg Prod.snd h2).symm
      rw [this, hst0]
      exact hinv
  | case3 i removed st h1 h2 fst st' hok ih =>
    intro hinv
    rw [retainLoop_hit c removed st h1 h2, hok]
    exact ih (vecRemoveAt_inv _ _ _ _ hok hinv)
  | case4 i removed st h1 =>
    intro hinv
    rw [retainLoop_done c removed st h1]
    constructor
    · intro b st' hok
      have h2 := Except.ok.inj hok
      have : st' = st := (congrArg Prod.snd h2).symm
      rw [this]
      exact hinv
    · intro e st' hcontra
      simp at hcontra

/-- Invariant preservation for the `removeIf` loop. -/
theorem removeIfLoop_inv (p : Option α → Bool) (k : Nat) :
    ∀ (removed : Bool) (st : VState α), VInv st →
    (∀ b st', removeIfLoop p k removed st = .ok (b, st') → VInv st') ∧
    (∀ e st', removeIfLoop p k removed st = .error (e, st') → VInv st') := by
  induction k with
  | zero =>
    intro removed st hinv
    constructor
    · intro b st' hok
      have h2 := Except.ok.inj hok
      have : st' = st := (congrArg Prod.snd h2).symm
      rw [this]
      exact hinv
    · intro e st' hcontra
      simp [removeIfLoop] at hcontra
  | succ k ihk =>
    intro removed st hinv
    by_cases hp : p (st.data.getD k none) = true
    · constructor
      · intro b st' hok
        rw [removeIfLoop, if_pos hp] at hok
        cases hrem : vecRemoveAt (k : Int) st with
        | error err =>
          rw [hrem] at hok
          simp at hok
        | ok v =>
          obtain ⟨r0, st0⟩ := v
          rw [hrem] at hok
          exact (ihk true st0 (vecRemoveAt_inv _ _ _ _ hrem hinv)).1 b st' hok
      · intro e st' herr
        rw [removeIfLoop, if_pos hp] at herr
        cases hrem : vecRemoveAt (k : Int) st with
        | error err =>
          obtain ⟨e0, st0⟩ := err
          obtain ⟨hst0, _⟩ := vecRemoveAt_error_state _ _ _ _ hrem
          rw [hrem] at herr
          have h2 := Except.error.inj herr
          have h3 : st' = st0 := (congrArg Prod.snd h2).symm
          rw [h3, hst0]
          exact hinv
        | ok v =>
          obtain ⟨r0, st0⟩ := v
          rw [hrem] at herr
          exact (ihk true st0 (vecRemoveAt_inv _ _ _ _ hrem hinv)).2 e st' herr
    · constructor
      · intro b st' hok
        rw [removeIfLoop, if_neg hp] at hok
        exact (ihk removed st hinv).1 b st' hok
      · intro e st' herr
        rw [removeIfLoop, if_neg hp] at herr
        exact (ihk removed st hinv).2 e st' herr

/-- The tail-append loop of `addAll` bumps the count by the number of
appended elements and keeps the buffer length. -/
theorem appendFold_spec (col : List (Option α)) :
    ∀ (s : VState α),
    ((col.foldl (fun s e => { s with data := s.data.set s.count e, count := s.count + 1 }) s).count
      = s.count + col.length) ∧
    ((col.foldl (fun s e => { s with data := s.data.set s.count e, count := s.count + 1 }) s).data.length
      = s.data.length) ∧
    ((col.foldl (fun s e => { s with data := s.data.set s.count e, count := s.count + 1 }) s).inc
      = s.inc) := by
  induction col with
  | nil => intro s; exact ⟨rfl, rfl, rfl⟩
  | cons e t ih =>
    intro s
    obtain ⟨h1, h2, h3⟩ := ih { s with data := s.data.set s.count e, count := s.count + 1 }
    refine ⟨?_, ?_, ?_⟩
    · rw [List.foldl_cons, h1]
      simp
      omega
    · rw [List.foldl_cons, h2]
      simp
    · rw [List.foldl_cons, h3]

theorem vecAddElement_inv (e : α) (st : VState α) (hinv : VInv st) :
    (∀ st', vecAddElement e st = .ok st' → VInv st') ∧
    (∀ er st', vecAddElement e st = .error (er, st') → VInv st') := by
  set st1 := if st.count = st.data.length then
      vecEnsureCapacity ((st.data.length : Int) +
        (if st.inc > 0 then st.inc else (st.data.length : Int))) st
    else st with hst1
  have hinv1 : VInv st1 := by
    rw [hst1]
    split
    · exact vecEnsureCapacity_inv _ st hinv
    · exact hinv
  have hcall : vecAddElement e st
      = if st1.count < st1.data.length then
          .ok { st1 with data := st1.data.set st1.count (some e), count := st1.count + 1 }
        else .error (.indexOutOfRange, st1) := rfl
  rw [hcall]
  by_cases hg : st1.count < st1.data.length
  · rw [if_pos hg]
    constructor
    · intro st' hok
      have h2 : st' = ⟨st1.data.set st1.count (some e), st1.count + 1, st1.inc⟩ :=
        (Except.ok.inj hok).symm
      rw [h2]
      show st1.count + 1 ≤ (st1.data.set st1.count (some e)).length
      simp only [List.length_set]
      omega
    · intro er st' hcontra
      simp at hcontra
  · rw [if_neg hg]
    constructor
    · intro st' hcontra
      simp at hcontra
    · intro er st' herr
      have h2 := Except.error.inj herr
      have h3 : st' = st1 := (congrArg Prod.snd h2).symm
      rw [h3]
      exact hinv1

theorem vecAdd2_inv (i : Int) (e : α) (st : VState α) (hinv : VInv st) :
    (∀ st', vecAdd2 i e st = .ok st' → VInv st') ∧
    (∀ er st', vecAdd2 i e st = .error (er, st') → VInv st') := by
  by_cases hg : (st.count : Int) < i ∨ i < 0
  · rw [vecAdd2, if_pos hg]
    constructor
    · intro st' hcontra
      simp at hcontra
    · intro er st' herr
      have h2 := Except.error.inj herr
      have h3 : st' = st := (congrArg Prod.snd h2).symm
      rw [h3]
      exact hinv
  · rw [vecAdd2, if_neg hg]
    obtain ⟨h1, _, _, _, _, _, h7⟩ := vecEnsureCapacity_spec ((st.count : Int) + 1) st hinv
    set st1 := vecEnsureCapacity ((st.count : Int) + 1) st with hst1
    have hroom : st.count < st1.data.length := by
      by_cases hm : (st.data.length : Int) < (st.count : Int) + 1
      · have := h7 hm
        omega
      · have hcl : st.count ≤ st.data.length := hinv
        have h4 := (vecEnsureCapacity_spec ((st.count : Int) + 1) st hinv).2.2.2.1 (by omega)
        rw [hst1, h4]
        omega
    constructor
    · intro st' hok
      have h2 : st' = { st1 with
          data := (shiftUp st1.data i.toNat st1.count).set i.toNat (some e),
          count := st1.count + 1 } := (Except.ok.inj hok).symm
      rw [h2]
      show st1.count + 1 ≤ ((shiftUp st1.data i.toNat st1.count).set i.toNat (some e)).length
      simp only [List.length_set, shiftUp_length]
      omega
    · intro er st' hcontra
      simp at hcontra

theorem vecSet_inv (i : Int) (e : α) (st : VState α) (hinv : VInv st) :
    (∀ r st', vecSet i e st = .ok (r, st') → VInv st') ∧
    (∀ er st', vecSet i e st = .error (er, st') → VInv st') := by
  by_cases hg : i < 0 ∨ (st.count : Int) ≤ i
  · rw [vecSet, if_pos hg]
    constructor
    · intro r st' hcontra
      simp at hcontra
    · intro er st' herr
      have h2 := Except.error.inj herr
      have h3 : st' = st := (congrArg Prod.snd h2).symm
      rw [h3]
      exact hinv
  · rw [vecSet, if_neg hg]
    constructor
    · intro r st' hok
      have h2 := Except.ok.inj hok
      have h3 : st' = { st with data := st.data.set i.toNat (some e) } :=
        (congrArg Prod.snd h2).symm
      rw [h3]
      show st.count ≤ (st.data.set i.toNat (some e)).length
      simp only [List.length_set]
      exact hinv
    · intro er st' hcontra
      simp at hcontra

theorem vecSetSize_inv (n : Int) (st : VState α) (hinv : VInv st) :
    (∀ st', vecSetSize n st = .ok st' → VInv st') ∧
    (∀ er st', vecSetSize n st = .error (er, st') → VInv st') := by
  have hcl : st.count ≤ st.data.length := hinv
  by_cases hn : n < 0
  · rw [vecSetSize, if_pos hn]
    constructor
    · intro st' hcontra
      simp at hcontra
    · intro er st' herr
      have h2 := Except.error.inj herr
      have h3 : st' = st := (congrArg Prod.snd h2).symm
      rw [h3]
      exact hinv
  · by_cases hgrow : (st.data.length : Int) < n
    · rw [vecSetSize, if_neg hn, if_pos hgrow]
      constructor
      · intro st' hok
        obtain ⟨h1, _, _, _, _, _, h7⟩ := vecEnsureCapacity_spec n st hinv
        have h3 : st' = { vecEnsureCapacity n st with count := n.toNat } :=
          (Except.ok.inj hok).symm
        rw [h3]
        show n.toNat ≤ (vecEnsureCapacity n st).data.length
        have := h7 hgrow
        omega
      · intro er st' hcontra
        simp at hcontra
    · rw [vecSetSize, if_neg hn, if_neg hgrow]
      by_cases hshrink : n < (st.count : Int)
      · rw [if_pos hshrink]
        constructor
        · intro st' hok
          have h3 : st' = ⟨clearRange st.data n.toNat st.count, n.toNat, st.inc⟩ :=
            (Except.ok.inj hok).symm
          rw [h3]
          show n.toNat ≤ (clearRange st.data n.toNat st.count).length
          rw [clearRange_length]
          omega
        · intro er st' hcontra
          simp at hcontra
      · rw [if_neg hshrink]
        constructor
        · intro st' hok
          have h3 : st' = { st with count := n.toNat } := (Except.ok.inj hok).symm
          rw [h3]
          show n.toNat ≤ st.data.length
          omega
        · intro er st' hcontra
          simp at hcontra

theorem vecSetElementAt_inv (x : α) (i : Int) (st : VState α) (hinv : VInv st) :
    (∀ st', vecSetElementAt x i st = .ok st' → VInv st') ∧
    (∀ er st', vecSetElementAt x i st = .error (er, st') → VInv st') := by
  have hcl : st.count ≤ st.data.length := hinv
  by_cases hneg : i < 0
  · rw [vecSetElementAt, if_pos hneg]
    constructor
    · intro st' hcontra
      simp at hcontra
    · intro er st' herr
      have h2 := Except.error.inj herr
      have h3 : st' = st := (congrArg Prod.snd h2).symm
      rw [h3]
      exact hinv
  · rw [vecSetElementAt, if_neg hneg]
    set st1 := if (st.data.length : Int) ≤ i then vecEnsureCapacity (i + 1) st else st
      with hst1
    have hinv1 : VInv st1 := by
      rw [hst1]
      split
      · exact vecEnsureCapacity_inv _ st hinv
      · exact hinv
    have hcap1 : (st1.count : Int) ≤ i → (i + 1) ≤ (st1.data.length : Int) := by
      intro hci
      rw [hst1]
      by_cases hii : (st.data.length : Int) ≤ i
      · rw [if_pos hii]
        obtain ⟨_, _, _, _, _, _, h7⟩ := vecEnsureCapacity_spec (i + 1) st hinv
        exact h7 (by omega)
      · rw [if_neg hii]
        omega
    constructor
    · intro st' hok
      set st2 := if (st1.count : Int) ≤ i then { st1 with count := i.toNat + 1 } else st1
        with hst2
      have h3 : st' = { st2 with data := st2.data.set i.toNat (some x) } :=
        (Except.ok.inj hok).symm
      rw [h3]
      show st2.count ≤ (st2.data.set i.toNat (some x)).length
      simp only [List.length_set]
      rw [hst2]
      by_cases hci : (st1.count : Int) ≤ i
      · rw [if_pos hci]
        have := hcap1 hci
        show i.toNat + 1 ≤ st1.data.length
        omega
      · rw [if_neg hci]
        exact hinv1
    · intro er st' hcontra
      simp at hcontra

theorem vecTrimToSize_inv (st : VState α) (hinv : VInv st) : VInv (vecTrimToSize st) := by
  have hcl : st.count ≤ st.data.length := hinv
  rw [vecTrimToSize]
  by_cases hg : st.count < st.data.length
  · rw [if_pos hg]
    show st.count ≤ (st.data.take st.count).length
    rw [List.length_take]
    omega
  · rw [if_neg hg]
    exact hinv

theorem vecClear_inv (st : VState α) : VInv (vecClear st) := by
  show (0 : Nat) ≤ _
  omega

theorem vecReplaceAll_inv (f : Option α → Option α) (st : VState α) (hinv : VInv st) :
    VInv (vecReplaceAll f st) := by
  show st.count ≤ (replaceLoop f st.count 0 st.data).length
  rw [replaceLoop_length]
  exact hinv

theorem vecRemoveElement_inv [DecidableEq α] (o : Option α) (st : VState α)
    (hinv : VInv st) : VInv (vecRemoveElement o st).2 := by
  rw [vecRemoveElement]
  by_cases hidx : vecIndexOf o st ≠ -1
  · rw [if_pos hidx]
    cases hrem : vecRemoveAt (vecIndexOf o st) st with
    | error err =>
      obtain ⟨e0, st0⟩ := err
      obtain ⟨hst0, _⟩ := vecRemoveAt_error_state _ _ _ _ hrem
      simpa [hst0] using hinv
    | ok v =>
      obtain ⟨r0, st0⟩ := v
      simpa using vecRemoveAt_inv _ _ _ _ hrem hinv
  · rw [if_neg hidx]
    exact hinv

theorem vecAddAll_inv (col : List (Option α)) (st : VState α) (hinv : VInv st) :
    VInv (vecAddAll col st).2 := by
  rw [vecAddAll]
  by_cases hc : col.length = 0
  · rw [if_pos hc]
    exact hinv
  · rw [if_neg hc]
    have hcl : st.count ≤ st.data.length := hinv
    obtain ⟨h1, _, _, _, _, _, h7⟩ :=
      vecEnsureCapacity_spec ((st.count : Int) + col.length) st hinv
    set st1 := vecEnsureCapacity ((st.count : Int) + col.length) st with hst1
    have hcap : st.count + col.length ≤ st1.data.length := by
      by_cases hm : (st.data.length : Int) < (st.count : Int) + col.length
      · have := h7 hm
        omega
      · have h4 := (vecEnsureCapacity_spec ((st.count : Int) + col.length) st hinv).2.2.2.1
          (by omega)
        rw [hst1, h4]
        omega
    obtain ⟨f1, f2, _⟩ := appendFold_spec col st1
    show (col.foldl _ st1).count ≤ (col.foldl _ st1).data.length
    rw [f1, f2, h1]
    exact hcap

/-- A Vector API call, covering construction and every mutating operation
modelled above. -/
inductive VOp (α : Type) where
  | init0
  | initCap (n : Nat)
  | initCapInc (n : Nat) (k : Int)
  | initColl (l : List (Option α))
  | ensure (m : Int)
  | addElement (e : α)
  | add1 (e : α)
  | add2 (i : Int) (e : α)
  | addAll (col : List (Option α))
  | removeAt (i : Int)
  | removeValue (o : Option α)
  | setAt (i : Int) (e : α)
  | setSize (n : Int)
  | setElementAt (e : α) (i : Int)
  | trimToSize
  | clear
  | retainAll (c : List (Option α))
  | removeIf (p : Option α → Bool)
  | replaceAll (f : Option α → Option α)

/-- Execute one call: the next observable state is the operation's result
state on success and the state at the raise on an error (a propagating
Python exception leaves the object in exactly that state). -/
def vstep {α : Type} [DecidableEq α] (st : VState α) (op : VOp α) : VState α :=
  match op with
  | .init0 => vectorNew α
  | .initCap n => vectorWithCapacity n
  | .initCapInc n k => vectorWithCapacityInc n k
  | .initColl l => vectorFromCollection l
  | .ensure m => vecEnsureCapacity m st
  | .addElement e =>
    match vecAddElement e st with
    | .ok st' => st'
    | .error (_, st') => st'
  | .add1 e => (vecAdd1 e st).1
  | .add2 i e =>
    match vecAdd2 i e st with
    | .ok st' => st'
    | .error (_, st') => st'
  | .addAll col => (vecAddAll col st).2
  | .removeAt i =>
    match vecRemoveAt i st with
    | .ok (_, st') => st'
    | .error (_, st') => st'
  | .removeValue o => (vecRemoveElement o st).2
  | .setAt i e =>
    match vecSet i e st with
    | .ok (_, st') => st'
    | .error (_, st') => st'
  | .setSize n =>
    match vecSetSize n st with
    | .ok st' => st'
    | .error (_, st') => st'
  | .setElementAt e i =>
    match vecSetElementAt e i st with
    | .ok st' => st'
    | .error (_, st') => st'
  | .trimToSize => vecTrimToSize st
  | .clear => vecClear st
  | .retainAll c =>
    match vecRetainAll c st with
    | .ok (_, st') => st'
    | .error (_, st') => st'
  | .removeIf p =>
    match vecRemoveIf p st with
    | .ok (_, st') => st'
    | .error (_, st') => st'
  | .replaceAll f => vecReplaceAll f st

/-- Run a sequence of calls starting from the default `Vector()`. -/
def vrun {α : Type} [DecidableEq α] (ops : List (VOp α)) : VState α :=
  ops.foldl vstep (vectorNew α)

theorem vstep_inv {α : Type} [DecidableEq α] (st : VState α) (op : VOp α)
    (hinv : VInv st) : VInv (vstep st op) := by
  cases op with
  | init0 => show (0 : Nat) ≤ _; simp
  | initCap n => show (0 : Nat) ≤ _; simp
  | initCapInc n k => show (0 : Nat) ≤ _; simp
  | initColl l => exact le_refl _
  | ensure m => exact vecEnsureCapacity_inv m st hinv
  | addElement e =>
    show VInv (match vecAddElement e st with
      | .ok st' => st'
      | .error (_, st') => st')
    obtain ⟨hok, herr⟩ := vecAddElement_inv e st hinv
    cases h : vecAddElement e st with
    | ok st' => exact hok st' h
    | error er =>
      obtain ⟨e0, st0⟩ := er
      exact herr e0 st0 h
  | add1 e =>
    exact (vecAdd1_spec e st hinv).2.1
  | add2 i e =>
    show VInv (match vecAdd2 i e st with
      | .ok st' => st'
      | .error (_, st') => st')
    obtain ⟨hok, herr⟩ := vecAdd2_inv i e st hinv
    cases h : vecAdd2 i e st with
    | ok st' => exact hok st' h
    | error er =>
      obtain ⟨e0, st0⟩ := er
      exact herr e0 st0 h
  | addAll col => exact vecAddAll_inv col st hinv
  | removeAt i =>
    show VInv (match vecRemoveAt i st with
      | .ok (_, st') => st'
      | .error (_, st') => st')
    cases h : vecRemoveAt i st with
    | ok v =>
      obtain ⟨r0, st0⟩ := v
      exact vecRemoveAt_inv i st r0 st0 h hinv
    | error er =>
      obtain ⟨e0, st0⟩ := er
      obtain ⟨h1, _⟩ := vecRemoveAt_error_state i st e0 st0 h
      simpa [h1] using hinv
  | removeValue o => exact vecRemoveElement_inv o st hinv
  | setAt i e =>
    show VInv (match vecSet i e st with
      | .ok (_, st') => st'
      | .error (_, st') => st')
    obtain ⟨hok, herr⟩ := vecSet_inv i e st hinv
    cases h : vecSet i e st with
    | ok v =>
      obtain ⟨r0, st0⟩ := v
      exact hok r0 st0 h
    | error er =>
      obtain ⟨e0, st0⟩ := er
      exact herr e0 st0 h
  | setSize n =>
    show VInv (match vecSetSize n st with
      | .ok st' => st'
      | .error (_, st') => st')
    obtain ⟨hok, herr⟩ := vecSetSize_inv n st hinv
    cases h : vecSetSize n st with
    | ok st' => exact hok st' h
    | error er =>
      obtain ⟨e0, st0⟩ := er
      exact herr e0 st0 h
  | setElementAt e i =>
    show VInv (match vecSetElementAt e i st with
      | .ok st' => st'
      | .error (_, st') => st')
    obtain ⟨hok, herr⟩ := vecSetElementAt_inv e i st hinv
    cases h : vecSetElementAt e i st with
    | ok st' => exact hok st' h
    | error er =>
      obtain ⟨e0, st0⟩ := er
      exact herr e0 st0 h
  | trimToSize => exact vecTrimToSize_inv st hinv
  | clear => exact vecClear_inv st
  | retainAll c =>
    show VInv (match vecRetainAll c st with
      | .ok (_, st') => st'
      | .error (_, st') => st')
    obtain ⟨hok, herr⟩ := retainLoop_inv c st.count 0 false st hinv
    cases h : vecRetainAll c st with
    | ok v =>
      obtain ⟨b0, st0⟩ := v
      exact hok b0 st0 h
    | error er =>
      obtain ⟨e0, st0⟩ := er
      exact herr e0 st0 h
  | removeIf p =>
    show VInv (match vecRemoveIf p st with
      | .ok (_, st') => st'
      | .error (_, st') => st')
    obtain ⟨hok, herr⟩ := removeIfLoop_inv p st.count false st hinv
    cases h : vecRemoveIf p st with
    | ok v =>
      obtain ⟨b0, st0⟩ := v
      exact hok b0 st0 h
    | error er =>
      obtain ⟨e0, st0⟩ := er
      exact herr e0 st0 h
  | replaceAll f => exact vecReplaceAll_inv f st hinv

/-- C8: for every finite sequence of Vector operations (construction,
add, addAll, remove, setSize, setElementAt, trimToSize, clear, retainAll,
removeIf, replaceAll, …), the invariant `0 ≤ elementCount ≤
len(elementData)` holds after every call — including calls that raise, the
state observed being the one a propagating exception leaves behind. -/
theorem claim_C8 {α : Type} [DecidableEq α] (ops : List (VOp α)) : VInv (vrun ops) := by
  suffices h : ∀ (ops2 : List (VOp α)) (st : VState α), VInv st →
      VInv (ops2.foldl vstep st) by
    refine h ops (vectorNew α) ?_
    show (0 : Nat) ≤ _
    simp
  intro ops2
  induction ops2 with
  | nil => intro st h; exact h
  | cons op t ih =>
    intro st h
    exact ih _ (vstep_inv st op h)

/-- Functional specification of a successful two-argument `add(index, e)`. -/
theorem vecAdd2_ok_spec (i : Int) (e : α) (st : VState α) (hinv : VInv st)
    (h0 : 0 ≤ i) (hle : i ≤ (st.count : Int)) :
    ∃ st', vecAdd2 i e st = .ok st' ∧
      st'.count = st.count + 1 ∧
      st'.data.length = (vecEnsureCapacity ((st.count : Int) + 1) st).data.length ∧
      (∀ j : Nat, j < i.toNat → st'.data.getD j none = st.data.getD j none) ∧
      st'.data.getD i.toNat none = some e ∧
      (∀ j : Nat, i.toNat ≤ j → j < st.count → st'.data.getD (j + 1) none = st.data.getD j none) := by
  have hcl : st.count ≤ st.data.length := hinv
  have hg : ¬ ((st.count : Int) < i ∨ i < 0) := by omega
  obtain ⟨h1, _, h3, _, _, h6, h7⟩ := vecEnsureCapacity_spec ((st.count : Int) + 1) st hinv
  set st1 := vecEnsureCapacity ((st.count : Int) + 1) st with hst1
  have hroom : st.count < st1.data.length := by
    by_cases hm : (st.data.length : Int) < (st.count : Int) + 1
    · have := h7 hm
      omega
    · have h4 := (vecEnsureCapacity_spec ((st.count : Int) + 1) st hinv).2.2.2.1 (by omega)
      rw [hst1, h4]
      omega
  have hitn : i.toNat ≤ st.count := by omega
  have hcall : vecAdd2 i e st = .ok { st1 with
      data := (shiftUp st1.data i.toNat st1.count).set i.toNat (some e),
      count := st1.count + 1 } := by
    rw [vecAdd2, if_neg hg]
  have hsu := shiftUp_getD st1.data i.toNat st1.count (by omega)
  refine ⟨_, hcall, by simp [h1], ?_, ?_, ?_, ?_⟩
  · show ((shiftUp st1.data i.toNat st1.count).set i.toNat (some e)).length = st1.data.length
    simp [shiftUp_length]
  · intro j hj
    show ((shiftUp st1.data i.toNat st1.count).set i.toNat (some e)).getD j none
        = st.data.getD j none
    rw [getD_set_ne none _ i.toNat j _ (by omega), hsu j,
      if_neg (by omega : ¬ (i.toNat < j ∧ j ≤ st1.count))]
    exact h6 j (by omega)
  · show ((shiftUp st1.data i.toNat st1.count).set i.toNat (some e)).getD i.toNat none = some e
    rw [getD_set_eq none _ i.toNat _ (by simp [shiftUp_length]; omega)]
  · intro j hij hj
    show ((shiftUp st1.data i.toNat st1.count).set i.toNat (some e)).getD (j + 1) none
        = st.data.getD j none
    rw [getD_set_ne none _ i.toNat (j + 1) _ (by omega), hsu (j + 1),
      if_pos (by constructor <;> omega : i.toNat < j + 1 ∧ j + 1 ≤ st1.count)]
    have : j + 1 - 1 = j := by omega
    rw [this]
    exact h6 j hj

/-- C6: inserting `e` at index `i` with `0 ≤ i ≤ n` via `add(i, e)`
succeeds (`i = n` is an append): `get(i)` returns `e`, indices `[0, i)`
are unchanged, every element previously at `j ∈ [i, n)` now answers from
`j + 1`, and the size is `n + 1`; for `i < 0` or `i > n` the call raises
IndexOutOfRange leaving the vector unchanged. -/
theorem claim_C6 {α : Type} (st : VState α) (hinv : VInv st) (i : Int) (e : α) :
    (0 ≤ i → i ≤ (st.count : Int) →
      ∃ st', vecAdd2 i e st = .ok st' ∧
        st'.count = st.count + 1 ∧
        vecGet i st' = .ok (some e) ∧
        (∀ j : Int, 0 ≤ j → j < i → vecGet j st' = vecGet j st) ∧
        (∀ j : Int, i ≤ j → j < (st.count : Int) → vecGet (j + 1) st' = vecGet j st)) ∧
    ((i < 0 ∨ (st.count : Int) < i) → vecAdd2 i e st = .error (.indexOutOfRange, st)) := by
  constructor
  · intro h0 hle
    obtain ⟨st', hcall, hcount, _, hlow, hat, hhigh⟩ := vecAdd2_ok_spec i e st hinv h0 hle
    refine ⟨st', hcall, hcount, ?_, ?_, ?_⟩
    · rw [vecGet, if_neg (by omega)]
      rw [hat]
    · intro j hj0 hji
      rw [vecGet, vecGet, if_neg (by omega), if_neg (by omega)]
      rw [hlow j.toNat (by omega)]
    · intro j hji hjc
      rw [vecGet, vecGet, if_neg (by omega), if_neg (by omega)]
      have hjn : (j + 1).toNat = j.toNat + 1 := by omega
      rw [hjn, hhigh j.toNat (by omega) (by omega)]
  · intro hbad
    rw [vecAdd2, if_pos (by omega)]

/-- Witness for C6: inserting 9 at index 1 of the two-element vector
`[7, 8]` gives `[7, 9, 8]`, and inserting at index 3 raises. -/
theorem claim_C6_witness :
    ∃ st', vecAdd2 1 (9 : Int) (vectorFromCollection [some 7, some 8]) = .ok st' ∧
      st'.count = 3 ∧
      vecGet 1 st' = .ok (some 9) ∧
      vecGet 0 st' = vecGet 0 (vectorFromCollection [some 7, some 8]) ∧
      vecGet 2 st' = vecGet 1 (vectorFromCollection [some 7, some 8]) ∧
      vecAdd2 3 (9 : Int) (vectorFromCollection [some 7, some 8])
        = .error (.indexOutOfRange, vectorFromCollection [some 7, some 8]) := by
  have h := claim_C6 (vectorFromCollection [some 7, some 8])
    (by show (2 : Nat) ≤ 2; omega) 1 (9 : Int)
  obtain ⟨st', hcall, hcount, hat, hlow, hhigh⟩ := h.1 (by decide) (by decide)
  refine ⟨st', hcall, hcount, hat, hlow 0 (by decide) (by decide), ?_, ?_⟩
  · exact hhigh 1 (by decide) (by decide)
  · exact (claim_C6 (vectorFromCollection [some 7, some 8])
      (by show (2 : Nat) ≤ 2; omega) 3 (9 : Int)).2 (by decide)

/-- C7: `ensureCapacity(m)` is a no-op when `m` fits the current capacity;
otherwise the capacity becomes `max(len + inc, m)` for a positive increment
and `max(len * 2, m)` for increment 0, preserving count and the stored
prefix.  Consequently a vector created with capacity 2 and increment 0
holds, after 3 appends, its three elements in insertion order in a buffer
of capacity 4 ≥ 4. -/
theorem claim_C7 {α : Type} :
    (∀ (st : VState α) (m : Int), VInv st →
      (m ≤ (st.data.length : Int) → vecEnsureCapacity m st = st) ∧
      ((st.data.length : Int) < m → 0 < st.inc →
        ((vecEnsureCapacity m st).data.length : Int)
          = max ((st.data.length : Int) + st.inc) m) ∧
      ((st.data.length : Int) < m → st.inc = 0 →
        ((vecEnsureCapacity m st).data.length : Int)
          = max ((st.data.length : Int) * 2) m) ∧
      (vecEnsureCapacity m st).count = st.count ∧
      (∀ j, j < st.count →
        (vecEnsureCapacity m st).data.getD j none = st.data.getD j none)) ∧
    (∀ a b c : α,
      ((vecAdd1 c (vecAdd1 b (vecAdd1 a (vectorWithCapacityInc 2 0)).1).1).1.count = 3) ∧
      (4 ≤ (vecAdd1 c (vecAdd1 b (vecAdd1 a (vectorWithCapacityInc 2 0)).1).1).1.data.length) ∧
      vecGet 0 (vecAdd1 c (vecAdd1 b (vecAdd1 a (vectorWithCapacityInc 2 0)).1).1).1
        = .ok (some a) ∧
      vecGet 1 (vecAdd1 c (vecAdd1 b (vecAdd1 a (vectorWithCapacityInc 2 0)).1).1).1
        = .ok (some b) ∧
      vecGet 2 (vecAdd1 c (vecAdd1 b (vecAdd1 a (vectorWithCapacityInc 2 0)).1).1).1
        = .ok (some c)) := by
  constructor
  · intro st m hinv
    obtain ⟨h1, _, _, h4, h5, h6, _⟩ := vecEnsureCapacity_spec m st hinv
    refine ⟨h4, ?_, ?_, h1, h6⟩
    · intro hm hpos
      rw [h5 hm, if_pos (by omega)]
    · intro hm hzero
      rw [h5 hm, if_neg (by omega)]
  · intro a b c
    refine ⟨?_, ?_, ?_, ?_, ?_⟩ <;>
      simp [vecAdd1, vecEnsureCapacity, vectorWithCapacityInc, vecGet, List.replicate]

/-- Witness for C7 on a concrete state: a vector of capacity 2 holding one
element, increment 0, grown to hold at least 5 slots, reaches capacity
`max(4, 5) = 5` with the element preserved. -/
theorem claim_C7_witness :
    vecEnsureCapacity 2 (⟨[some (7 : Int), none], 1, 0⟩ : VState Int)
      = (⟨[some (7 : Int), none], 1, 0⟩ : VState Int) ∧
    ((vecEnsureCapacity 5 (⟨[some (7 : Int), none], 1, 0⟩ : VState Int)).data.length : Int)
      = max (2 * 2) 5 ∧
    (vecEnsureCapacity 5 (⟨[some (7 : Int), none], 1, 0⟩ : VState Int)).count = 1 ∧
    (vecEnsureCapacity 5 (⟨[some (7 : Int), none], 1, 0⟩ : VState Int)).data.getD 0 none
      = some 7 := by
  have h := (claim_C7 (α := Int)).1 (⟨[some 7, none], 1, 0⟩ : VState Int) 5
    (by show (1 : Nat) ≤ 2; omega)
  have h2 := (claim_C7 (α := Int)).1 (⟨[some 7, none], 1, 0⟩ : VState Int) 2
    (by show (1 : Nat) ≤ 2; omega)
  exact ⟨h2.1 (by decide), by simpa using h.2.2.1 (by decide) rfl, h.2.2.2.1,
    by simpa using h.2.2.2.2 0 (by decide)⟩

/-- C10: `setElementAt(x, i)`
with `i ≥ size()` and `i ≥ 0` does not raise: it grows the buffer to at
least `i + 1` slots if needed, sets the size to `i + 1`, makes `get(i)`
return `x`, and leaves the elements at `[0, old size)` unchanged. -/
theorem claim_C10 {α : Type} (st : VState α) (hinv : VInv st) (x : α) (i : Int)
    (h0 : 0 ≤ i) (hge : (st.count : Int) ≤ i) :
    ∃ st', vecSetElementAt x i st = .ok st' ∧
      (i + 1) ≤ (st'.data.length : Int) ∧
      st'.count = i.toNat + 1 ∧
      vecGet i st' = .ok (some x) ∧
      (∀ j : Int, 0 ≤ j → j < (st.count : Int) → vecGet j st' = vecGet j st) := by
  have hcl : st.count ≤ st.data.length := hinv
  obtain ⟨e1, _, _, _, _, e6, e7⟩ := vecEnsureCapacity_spec (i + 1) st hinv
  have hcount1 : (if (st.data.length : Int) ≤ i then vecEnsureCapacity (i + 1) st else st).count
      = st.count := by
    split
    · exact e1
    · rfl
  set st1 := if (st.data.length : Int) ≤ i then vecEnsureCapacity (i + 1) st else st
    with hst1
  have hcap1 : i + 1 ≤ (st1.data.length : Int) := by
    rw [hst1]
    by_cases hii : (st.data.length : Int) ≤ i
    · rw [if_pos hii]
      exact e7 (by omega)
    · rw [if_neg hii]
      omega
  have hpres1 : ∀ j, j < st.count → st1.data.getD j none = st.data.getD j none := by
    intro j hj
    rw [hst1]
    split
    · exact e6 j hj
    · rfl
  have hci : (st1.count : Int) ≤ i := by
    rw [hcount1]
    exact hge
  have hcall : vecSetElementAt x i st = .ok { st1 with data := st1.data.set i.toNat (some x), count := i.toNat + 1 } := by
    rw [vecSetElementAt, if_neg (by omega), ← hst1]
    simp only [if_pos hci]
  refine ⟨_, hcall, ?_, rfl, ?_, ?_⟩
  · show i + 1 ≤ ((st1.data.set i.toNat (some x)).length : Int)
    simp only [List.length_set]
    exact hcap1
  · rw [vecGet, if_neg (by simp; omega)]
    show Except.ok ((st1.data.set i.toNat (some x)).getD i.toNat none) = .ok (some x)
    rw [getD_set_eq none _ i.toNat _ (by omega)]
  · intro j hj0 hjc
    rw [vecGet, vecGet, if_neg (by simp; omega), if_neg (by omega)]
    show Except.ok ((st1.data.set i.toNat (some x)).getD j.toNat none) = _
    rw [getD_set_ne none _ i.toNat j.toNat _ (by omega), hpres1 j.toNat (by omega)]

/-- Witness for C10: `setElementAt(9, 4)` on a two-element vector of
capacity 10 extends the size to 5 with `get(4) = 9` and the old elements
intact. -/
theorem claim_C10_witness :
    ∃ st', vecSetElementAt (9 : Int) 4 (vectorFromCollection [some 7, some 8]) = .ok st' ∧
      (5 : Int) ≤ (st'.data.length : Int) ∧
      st'.count = 5 ∧
      vecGet 4 st' = .ok (some 9) ∧
      vecGet 0 st' = vecGet 0 (vectorFromCollection [some 7, some 8]) := by
  obtain ⟨st', hcall, hlen, hcount, hat, hpres⟩ :=
    claim_C10 (vectorFromCollection [some (7 : Int), some 8])
      (by show (2 : Nat) ≤ 2; omega) 9 4 (by decide) (by decide)
  exact ⟨st', hcall, hlen, hcount, hat, hpres 0 (by decide) (by decide)⟩

/-- C4 (amended): `Vector(n)` is created empty for every capacity `n` — its
size is 0, `isEmpty()` is true, `get` raises for every index, and only the
backing buffer has `n` slots.  `ArrayDeque(n)`, by contrast, fills the
deque with `n` None placeholders: its size is `n`, and it is empty only
for `n = 0`. -/
theorem claim_C4 {α ι : Type} :
    (∀ n : Nat,
      (vectorWithCapacity n : VState α).count = 0 ∧
      vecIsEmpty (vectorWithCapacity n : VState α) = true ∧
      (vectorWithCapacity n : VState α).data.length = n ∧
      (∀ i : Int, vecGet i (vectorWithCapacity n : VState α) = .error .indexOutOfRange)) ∧
    (∀ n : Nat,
      dequeSize (arrayDequeWithCapacity n : List (Option ι)) = n ∧
      (dequeIsEmpty (arrayDequeWithCapacity n : List (Option ι)) = true ↔ n = 0) ∧
      (arrayDequeWithCapacity n : List (Option ι)) = List.replicate n none) := by
  constructor
  · intro n
    refine ⟨rfl, rfl, by simp [vectorWithCapacity], ?_⟩
    intro i
    rw [vecGet, if_pos ?_]
    show i < 0 ∨ ((vectorWithCapacity n : VState α).count : Int) ≤ i
    show i < 0 ∨ ((0 : Nat) : Int) ≤ i
    omega
  · intro n
    refine ⟨by simp [dequeSize, arrayDequeWithCapacity], ?_, rfl⟩
    simp [dequeIsEmpty, arrayDequeWithCapacity]

/-- Counterexample to C4 as stated: `ArrayDeque(3)` does not have
`size() == 0` — it holds 3 placeholder elements and `isEmpty()` is false. -/
theorem claim_C4_cex :
    dequeSize (arrayDequeWithCapacity 3 : List (Option Int)) = 3 ∧
    dequeIsEmpty (arrayDequeWithCapacity 3 : List (Option Int)) = false := by
  constructor <;> rfl

/-- C9: on a container with zero elements the throwing accessors
(`Stack.peek`, `Stack.pop`, deque `element`/`getFirst`/`getLast`,
priority-queue `element`) raise the empty-collection error, while the
non-throwing accessors (`peekFirst`, `peekLast`, `peek`, `poll`,
`pollFirst`, `pollLast`, priority-queue `peek`/`poll`) return the `None`
sentinel with the container untouched. -/
theorem claim_C9 {α ι : Type} [LinearOrder α] [Inhabited α] :
    (∀ st : VState ι, st.count = 0 →
      stackPeek st = .error .emptyCollection ∧
      stackPop st = .error (.emptyCollection, st)) ∧
    (dequeGetFirst ([] : List (Option ι)) = .error .emptyCollection ∧
     dequeGetLast ([] : List (Option ι)) = .error .emptyCollection ∧
     dequeElement ([] : List (Option ι)) = .error .emptyCollection) ∧
    (dequePeekFirst ([] : List (Option ι)) = none ∧
     dequePeekLast ([] : List (Option ι)) = none ∧
     dequePeek ([] : List (Option ι)) = none ∧
     dequePollFirst ([] : List (Option ι)) = (none, []) ∧
     dequePollLast ([] : List (Option ι)) = (none, []) ∧
     dequePoll ([] : List (Option ι)) = (none, [])) ∧
    (PQn.element (⟨[]⟩ : PQn α) = .error .emptyCollection ∧
     PQn.peek (⟨[]⟩ : PQn α) = none ∧
     PQn.poll (⟨[]⟩ : PQn α) = (none, ⟨[]⟩)) ∧
    (PQc.element (⟨[]⟩ : PQc Int α) = .error .emptyCollection ∧
     PQc.peek (⟨[]⟩ : PQc Int α) = none ∧
     PQc.poll (⟨[]⟩ : PQc Int α) = (none, ⟨[]⟩)) := by
  refine ⟨?_, ⟨rfl, rfl, rfl⟩, ⟨rfl, rfl, rfl, rfl, rfl, rfl⟩, ⟨rfl, rfl, rfl⟩,
    rfl, rfl, rfl⟩
  intro st hc
  constructor
  · rw [stackPeek, if_pos hc]
  · rw [stackPop, if_pos hc]

/-- Witness for C9 at the default-constructed (empty) stack. -/
theorem claim_C9_witness :
    stackPeek (vectorNew Int) = .error .emptyCollection ∧
    stackPop (vectorNew Int) = .error (.emptyCollection, vectorNew Int) :=
  (claim_C9 (α := Int) (ι := Int)).1 (vectorNew Int) rfl

/-- C2 is a bug in the code: `retainAll` iterates over the element count
captured at entry while `__removeAt__` shrinks the live count, so on the
vector `[1, 2]` with an empty retention collection the call removes the
first element and then raises IndexOutOfRange (instead of removing every
non-member and returning True).  The state carried by the error still
holds the shifted element `2`. -/
theorem claim_C2 :
    vecRetainAll ([] : List (Option Int))
        (vecAdd1 2 (vecAdd1 1 (vectorWithCapacity 2 : VState Int)).1).1
      = .error (.indexOutOfRange, ⟨[some 2, none], 1, 0⟩) := by
  have h1 : (vecAdd1 2 (vecAdd1 1 (vectorWithCapacity 2 : VState Int)).1).1
      = ⟨[some 1, some 2], 2, 0⟩ := by
    simp [vecAdd1, vecEnsureCapacity, vectorWithCapacity, List.replicate]
  rw [h1, vecRetainAll]
  simp [retainLoop_hit, retainLoop_skip, retainLoop_done, vecRemoveAt,
    shiftDown_step, shiftDown_stop]

/-- C3 is the same bug seen as an atomicity violation: `retainAll` on
`[1, 2, 3]` with an empty retention collection raises IndexOutOfRange
*after* having removed two elements — the observable contents at the raise
are `[2]`, not the pre-call `[1, 2, 3]`, so the operation fails with a
partial mutation. -/
theorem claim_C3 :
    vecRetainAll ([] : List (Option Int))
        (vecAdd1 3 (vecAdd1 2 (vecAdd1 1 (vectorWithCapacity 3 : VState Int)).1).1).1
      = .error (.indexOutOfRange, ⟨[some 2, none, none], 1, 0⟩) ∧
    vecToArray (⟨[some 2, none, none], 1, 0⟩ : VState Int) = [some 2] ∧
    vecToArray (vecAdd1 3 (vecAdd1 2 (vecAdd1 1 (vectorWithCapacity 3 : VState Int)).1).1).1
      = [some 1, some 2, some 3] ∧
    vecToArray (⟨[some 2, none, none], 1, 0⟩ : VState Int)
      ≠ vecToArray (vecAdd1 3 (vecAdd1 2 (vecAdd1 1 (vectorWithCapacity 3 : VState Int)).1).1).1 := by
  have h1 : (vecAdd1 3 (vecAdd1 2 (vecAdd1 1 (vectorWithCapacity 3 : VState Int)).1).1).1
      = ⟨[some 1, some 2, some 3], 3, 0⟩ := by
    simp [vecAdd1, vecEnsureCapacity, vectorWithCapacity, List.replicate]
  refine ⟨?_, rfl, by rw [h1]; rfl, by rw [h1]; simp [vecToArray]⟩
  rw [h1, vecRetainAll]
  simp [retainLoop_hit, retainLoop_skip, retainLoop_done, vecRemoveAt,
    shiftDown_step, shiftDown_stop]

end VectorLemmas

end Jc
